import Mathlib

/-!
Shallow embedding of the core of `root-readspeed` (src/src/ReadSpeed.hxx)
and proofs about its specification.

Modelling conventions:
* `Long64_t` becomes `Int`; `ULong64_t` counters become `Nat` with additions
  reduced modulo `2 ^ 64` (`add64`), matching unsigned 64-bit wrap-around.
* External collaborators (ROOT's `TFile`, `TTree`, cluster iterator, regex
  engine, `TBranch::GetEntry`) are parameters of the embedding: an `Env`
  record of pure oracle functions.  Per the refinement statement, byte counts
  delivered by `TBranch::GetEntry(e)` and the growth of `TFile::GetBytesRead`
  during that call are pure functions of (file, tree, branch, entry).
* C++ `throw` becomes `Except Err`; an unsigned integer division by zero
  (undefined behavior in C++) is modelled as `none` in `Option`.
-/

namespace ReadSpeed

/-- `2 ^ 64`, the modulus of `ULong64_t` arithmetic. -/
def U64 : Nat := 2 ^ 64

/-- Unsigned 64-bit addition: `Nat` addition reduced modulo `2 ^ 64`. -/
def add64 (a b : Nat) : Nat := (a + b) % U64

/-- `struct EntryRange` of ReadSpeed.hxx: a half-open range of tree entries,
with `Long64_t` fields (the default value `{-1, -1}` is the sentinel used by
`ReadTree`). -/
structure EntryRange where
  fStart : Int
  fEnd : Int
deriving DecidableEq, Repr

/-- `struct ByteData` of ReadSpeed.hxx: uncompressed and compressed bytes
read, both `ULong64_t`. -/
structure ByteData where
  fUncompressedBytesRead : Nat
  fCompressedBytesRead : Nat
deriving DecidableEq, Repr

/-- The extra cluster consumed by a merged range while remainder clusters are
left to distribute: the `if (nReminderClusters > 0) { i += 1; ... }` step of
`MergeClusters`. -/
def grpExtra (nRem : Nat) : Nat := if 0 < nRem then 1 else 0

/-- The inner loop of `MergeClusters` (ReadSpeed.hxx lines 294-306) for one
file, on the path where `nFolds > 0`: repeatedly take `nFolds` clusters (plus
one extra while remainder clusters are left), and emit one `EntryRange` from
the first taken cluster's `fStart` to the last taken cluster's `fEnd`. -/
def mergeLoop (nFolds : Nat) : Nat → List EntryRange → List EntryRange
  | _, [] => []
  | nRem, c :: cs =>
    ⟨c.fStart, ((c :: cs).getD (nFolds + grpExtra nRem - 1) c).fEnd⟩ ::
      mergeLoop nFolds (nRem - grpExtra nRem) (cs.drop (nFolds + grpExtra nRem - 1))
termination_by nRem l => l.length
decreasing_by simp [List.length_drop]; omega

/-- The grouping of native clusters performed by `mergeLoop`: same recursion,
but returning the consecutive groups of clusters that each merged range
spans, instead of the fused ranges. -/
def chunks (nFolds : Nat) : Nat → List EntryRange → List (List EntryRange)
  | _, [] => []
  | nRem, c :: cs =>
    (c :: cs.take (nFolds + grpExtra nRem - 1)) ::
      chunks nFolds (nRem - grpExtra nRem) (cs.drop (nFolds + grpExtra nRem - 1))
termination_by nRem l => l.length
decreasing_by simp [List.length_drop]; omega

/-- One iteration of the outer loop of `MergeClusters` (ReadSpeed.hxx lines
281-308): the body run for a single file's cluster list.  `nFolds` is
`nClustersInThisFile / maxTasksPerFile`; C++ unsigned division by zero is
undefined behavior, modelled as `none`.  When `nFolds == 0` the file's
clusters are returned unchanged; otherwise the fusing loop runs with
`nReminderClusters = nClustersInThisFile % maxTasksPerFile`. -/
def mergeFileClusters (maxTasksPerFile : Nat) (cl : List EntryRange) :
    Option (List EntryRange) :=
  if maxTasksPerFile = 0 then none
  else if cl.length / maxTasksPerFile = 0 then some cl
  else some (mergeLoop (cl.length / maxTasksPerFile) (cl.length % maxTasksPerFile) cl)

/-- `MergeClusters` of ReadSpeed.hxx (lines 274-311): merge each file's entry
ranges so that each file yields at most `maxTasksPerFile` tasks. -/
def MergeClusters (clusters : List (List EntryRange)) (maxTasksPerFile : Nat) :
    Option (List (List EntryRange)) :=
  clusters.mapM (mergeFileClusters maxTasksPerFile)

/-- The merged range produced from one group of consecutive native clusters:
from the first cluster's `fStart` to the last cluster's `fEnd`. -/
def fuze (d : EntryRange) (g : List EntryRange) : EntryRange :=
  ⟨(g.headD d).fStart, (g.getLastD d).fEnd⟩

/-- `struct Data` of ReadSpeed.hxx: the dataset configuration. -/
structure Data where
  fTreeNames : List String
  fFileNames : List String
  fBranchNames : List String
  fUseRegex : Bool
deriving DecidableEq, Repr

/-- A ROOT `TTree` as far as branch-name enumeration is concerned: the object
identity used by the `analysedTrees` set of `GetTopLevelBranchNamesImpl`
(`id`, modelling the C++ pointer), the tree's own top-level branch names in
enumeration order, and the list of friend trees, each with the name returned
by `TFriendElement::GetName` (tree name or alias). -/
inductive TTree where
  | node (id : Nat) (branches : List String) (friends : List (String × TTree)) : TTree

/-- The branch loop of `GetTopLevelBranchNamesImpl` (ReadSpeed.hxx lines
77-92): insert each branch name if unseen; for a friend tree, fall back to
the qualified `<friendname>.<branchname>`. -/
def processBranches (friendName : String) :
    List String → Finset String → List String → Finset String × List String
  | [], bNamesReg, bNames => (bNamesReg, bNames)
  | name :: rest, bNamesReg, bNames =>
    if name ∉ bNamesReg then
      processBranches friendName rest (insert name bNamesReg) (bNames ++ [name])
    else if friendName ≠ "" then
      let longName := friendName ++ "." ++ name
      if longName ∉ bNamesReg then
        processBranches friendName rest (insert longName bNamesReg) (bNames ++ [longName])
      else processBranches friendName rest bNamesReg bNames
    else processBranches friendName rest bNamesReg bNames

mutual
/-- `GetTopLevelBranchNamesImpl` of ReadSpeed.hxx (lines 70-105): collect the
branch names of a tree and of its friends, skipping trees already analysed
(`analysedTrees` holds the identities of visited trees). -/
def GetTopLevelBranchNamesImpl (t : TTree) (bNamesReg : Finset String)
    (bNames : List String) (analysedTrees : Finset Nat) (friendName : String) :
    Finset String × List String × Finset Nat :=
  match t with
  | .node i branches friendTrees =>
    if i ∈ analysedTrees then (bNamesReg, bNames, analysedTrees)
    else
      let p := processBranches friendName branches bNamesReg bNames
      implFriends friendTrees p.1 p.2 (insert i analysedTrees)

/-- The friend loop of `GetTopLevelBranchNamesImpl` (lines 99-104). -/
def implFriends (friendTrees : List (String × TTree)) (bNamesReg : Finset String)
    (bNames : List String) (analysedTrees : Finset Nat) :
    Finset String × List String × Finset Nat :=
  match friendTrees with
  | [] => (bNamesReg, bNames, analysedTrees)
  | (frName, friendTree) :: rest =>
    let q := GetTopLevelBranchNamesImpl friendTree bNamesReg bNames analysedTrees frName
    implFriends rest q.1 q.2.1 q.2.2
end

/-- `GetTopLevelBranchNames` of ReadSpeed.hxx (lines 109-116). -/
def GetTopLevelBranchNames (t : TTree) : List String :=
  (GetTopLevelBranchNamesImpl t ∅ [] ∅ "").2.1

/-- The error cases of the embedded functions.  All C++ throw sites use
`std::runtime_error`; the constructors record which site fired (the spec's
taxonomy: `ConfigError`, `OpenError`, `LookupError`, `ColumnError`,
`RangeError`).  `arithmeticFault` is not a C++ exception: it models the
undefined behavior of the unsigned division by zero in `MergeClusters`. -/
inductive Err where
  /-- `Could not open file ...` (OpenError). -/
  | openError (fileName : String)
  /-- `Could not retrieve tree ... from file ...` (LookupError). -/
  | lookupError (treeName fileName : String)
  /-- `Provided branch regexes didn't match any branches in the tree.`
  (ColumnError). -/
  | regexNoMatch
  /-- `Some branches/regexes weren't found in the tree...` (ColumnError). -/
  | selectorsUnused
  /-- `Range end ... is beyod the end of tree ...` (RangeError). -/
  | rangeEndBeyondTree
  /-- `Please provide at least one tree name` (ConfigError). -/
  | configNoTreeNames
  /-- `Please provide at least one file name` (ConfigError). -/
  | configNoFileNames
  /-- `Please provide at least one branch name` (ConfigError). -/
  | configNoBranchNames
  /-- `Please provide either one tree name or as many as the file names`
  (ConfigError). -/
  | configTreeFileMismatch
  /-- Undefined behavior: unsigned integer division by zero. -/
  | arithmeticFault
deriving DecidableEq, Repr

/-- Whether an error is one of the four configuration-validation failures of
`EvalThroughput` (the spec's `ConfigError`). -/
def Err.isConfig : Err → Bool
  | .configNoTreeNames | .configNoFileNames
  | .configNoBranchNames | .configTreeFileMismatch => true
  | _ => false

/-- The external collaborators of ReadSpeed.hxx as pure oracle functions:
ROOT file opening, tree lookup, entry counts, the cluster iterator, the
per-entry byte counts of `TBranch::GetEntry` (uncompressed: its return
value; compressed: the growth of `TFile::GetBytesRead` during the call,
modelled per (file, tree, branch, entry) as a pure reader), and
`std::regex_match`. -/
structure Env where
  /-- `TFile::Open(fileName)` produced a zombie file. -/
  isZombie : String → Bool
  /-- `f->Get<TTree>(treeName)`: the tree of that name in that file. -/
  getTree : String → String → Option TTree
  /-- `t->GetEntries()` for the tree `treeName` of file `fileName`. -/
  nEntries : String → String → Int
  /-- The ranges produced by `t->GetClusterIterator(0)` in `GetClusters`:
  the native cluster boundaries of the tree. -/
  clusters : String → String → List EntryRange
  /-- Uncompressed bytes returned by `b->GetEntry(e)`:
  (fileName, treeName, branchName, entry). -/
  uncompBytes : String → String → String → Int → Nat
  /-- Growth of `f->GetBytesRead()` during `b->GetEntry(e)`:
  (fileName, treeName, branchName, entry). -/
  compBytes : String → String → String → Int → Nat
  /-- `std::regex_match(bName, std::regex(regex))`. -/
  regexMatch : String → String → Bool

/-- The `matchBranch` lambda of `GetMatchingBranchNames` (lines 133-146):
literal comparison, or regex match in regex mode. -/
def matchBranch (env : Env) (useRegex : Bool) (bName regex : String) : Bool :=
  if !useRegex then bName == regex else env.regexMatch bName regex

/-- The `copy_if`/`find_if` pass of `GetMatchingBranchNames` (lines 148-152):
keep each branch name matched by some selector (`find_if` stops at the first
match), and record in `usedRegexes` each selector that fired as the first
match of some branch. -/
def filterPass (env : Env) (useRegex : Bool) (regexes : List String) :
    List String → Finset String → List String × Finset String
  | [], usedRegexes => ([], usedRegexes)
  | bName :: rest, usedRegexes =>
    match regexes.find? (matchBranch env useRegex bName) with
    | some regex =>
      let res := filterPass env useRegex regexes rest (insert regex usedRegexes)
      (bName :: res.1, res.2)
    | none => filterPass env useRegex regexes rest usedRegexes

/-- `GetMatchingBranchNames` of ReadSpeed.hxx (lines 118-166): open the file,
look up the tree, filter its top-level branch names through the selectors,
and fail if regex mode matched nothing or if some selector went unused. -/
def GetMatchingBranchNames (env : Env) (fileName treeName : String)
    (regexes : List String) (useRegex : Bool) : Except Err (List String) :=
  if env.isZombie fileName then .error (.openError fileName)
  else
    match env.getTree fileName treeName with
    | none => .error (.lookupError treeName fileName)
    | some t =>
      let p := filterPass env useRegex regexes (GetTopLevelBranchNames t) ∅
      if p.1.isEmpty && useRegex then .error .regexNoMatch
      else if p.2.card ≠ regexes.length then .error .selectorsUnused
      else .ok p.1

/-- The entries of a half-open `EntryRange`, in ascending order: the values
taken by `e` in the loop `for (auto e = range.fStart; e < range.fEnd; ++e)`
of `ReadTree`. -/
def rangeEntries (r : EntryRange) : List Int :=
  (List.range (r.fEnd - r.fStart).toNat).map (fun (i : Nat) => r.fStart + (i : Int))

/-- The accumulation of the double loop of `ReadTree` (lines 206-208): for
each entry, for each branch, add the byte count into a `ULong64_t`
accumulator. -/
def loopBytes (f : Int → String → Nat) (entries : List Int)
    (branchNames : List String) : Nat :=
  entries.foldl (fun acc e => branchNames.foldl (fun acc2 b => add64 acc2 (f e b)) acc) 0

/-- The `ByteData` produced by the read loop of `ReadTree` over a concrete
entry range. -/
def readLoop (env : Env) (treeName fileName : String) (branchNames : List String)
    (r : EntryRange) : ByteData :=
  ⟨loopBytes (fun e b => env.uncompBytes fileName treeName b e) (rangeEntries r) branchNames,
   loopBytes (fun e b => env.compBytes fileName treeName b e) (rangeEntries r) branchNames⟩

/-- `ReadTree` of ReadSpeed.hxx (lines 169-212).  The C++ default argument is
`range = {-1, -1}`; callers that rely on it pass `⟨-1, -1⟩` here.  The
thread-local `TFile` cache only avoids reopening and does not change
results, so opening is modelled directly through the environment. -/
def ReadTree (env : Env) (treeName fileName : String) (branchNames : List String)
    (range : EntryRange) : Except Err ByteData :=
  if env.isZombie fileName then .error (.openError fileName)
  else
    match env.getTree fileName treeName with
    | none => .error (.lookupError treeName fileName)
    | some _t =>
      let nEntries := env.nEntries fileName treeName
      if range.fStart = -1 then
        .ok (readLoop env treeName fileName branchNames ⟨0, nEntries⟩)
      else if range.fEnd > nEntries then .error .rangeEndBeyondTree
      else .ok (readLoop env treeName fileName branchNames range)

/-- The tree name used for file `fileIdx`: `d.fTreeNames[fileIdx]` when one
tree name is given per file, else the single shared `d.fTreeNames[0]`.  In
`EvalThroughputST` and the branch-resolution loop of `EvalThroughputMT` this
arises from the `treeIdx` counter that is incremented only when
`d.fTreeNames.size() > 1`; in `GetClusters` and `processFile` from the
equivalent ternary expression. -/
def treeNameOf (d : Data) (fileIdx : Nat) : String :=
  if d.fTreeNames.length > 1 then d.fTreeNames.getD fileIdx "" else d.fTreeNames.getD 0 ""

/-- The loop of `EvalThroughputST` (lines 222-235), carrying the running
`treeIdx` and the two `ULong64_t` accumulators. -/
def evalSTLoop (env : Env) (d : Data) :
    List String → Nat → Nat → Nat → Except Err ByteData
  | [], _, accU, accC => .ok ⟨accU, accC⟩
  | fName :: rest, treeIdx, accU, accC => do
    let treeName := d.fTreeNames.getD treeIdx ""
    let branchNames ← GetMatchingBranchNames env fName treeName d.fBranchNames d.fUseRegex
    let byteData ← ReadTree env treeName fName branchNames ⟨-1, -1⟩
    evalSTLoop env d rest (if d.fTreeNames.length > 1 then treeIdx + 1 else treeIdx)
      (add64 accU byteData.fUncompressedBytesRead)
      (add64 accC byteData.fCompressedBytesRead)

/-- `EvalThroughputST` of ReadSpeed.hxx (lines 214-238), restricted to the
byte totals (the stopwatch times are external measurements). -/
def EvalThroughputST (env : Env) (d : Data) : Except Err ByteData :=
  evalSTLoop env d d.fFileNames 0 0 0

/-- `GetClusters` of ReadSpeed.hxx (lines 242-269): per file, open it, look
up its tree, and collect the entry ranges delivered by the cluster
iterator (an external collaborator, `Env.clusters`). -/
def GetClusters (env : Env) (d : Data) : Except Err (List (List EntryRange)) :=
  (List.range d.fFileNames.length).mapM (fun fileIdx =>
    let fileName := d.fFileNames.getD fileIdx ""
    if env.isZombie fileName then .error (.openError fileName)
    else
      let treeName := treeNameOf d fileIdx
      match env.getTree fileName treeName with
      | none => .error (.lookupError treeName fileName)
      | some _t => .ok (env.clusters fileName treeName))

/-- The `sumBytes` lambda of `EvalThroughputMT` (lines 339-348): two
`std::accumulate` passes over the per-task results, in `ULong64_t`. -/
def sumBytes (bytesData : List ByteData) : ByteData :=
  ⟨bytesData.foldl (fun sum o => add64 sum o.fUncompressedBytesRead) 0,
   bytesData.foldl (fun sum o => add64 sum o.fCompressedBytesRead) 0⟩

/-- `ByteData` combination: the pointwise `ULong64_t` sum by which `sumBytes`
folds task results. -/
def ByteData.combine (a b : ByteData) : ByteData :=
  ⟨add64 a.fUncompressedBytesRead b.fUncompressedBytesRead,
   add64 a.fCompressedBytesRead b.fCompressedBytesRead⟩

/-- The identity of `ByteData.combine`: zero bytes read. -/
def ByteData.identity : ByteData := ⟨0, 0⟩

/-- `std::ceil(float(a) / float(b))` on the natural numbers involved in the
`maxTasksPerFile` computation of `EvalThroughputMT` (line 322). -/
def ceilDivNat (a b : Nat) : Nat := (a + b - 1) / b

/-- Lift the result of `MergeClusters` into the run: the division by zero
(undefined behavior, `none`) aborts as a fault; it is unreachable from
`EvalThroughputMT`, whose `maxTasksPerFile` is at least 1. -/
def mergedOrFault (x : Option (List (List EntryRange))) :
    Except Err (List (List EntryRange)) :=
  match x with
  | some r => pure r
  | none => Except.error .arithmeticFault

/-- `EvalThroughputMT` of ReadSpeed.hxx (lines 313-374), restricted to the
byte totals.  The granted pool size `actualThreads` is modelled as the
requested `nThreads`; `ROOT::TTreeProcessorMT::GetTasksPerWorkerHint()` is
the parameter `hint`.  `pool.MapReduce(f, xs, sumBytes)` evaluates the pure
task function on every element and folds with `sumBytes`; a task exception
aborts the run, hence `mapM` in `Except`. -/
def EvalThroughputMT (env : Env) (d : Data) (nThreads hint : Nat) :
    Except Err ByteData := do
  let maxTasksPerFile := ceilDivNat (hint * nThreads) d.fFileNames.length
  let clusters ← GetClusters env d
  let rangesPerFile ← mergedOrFault (MergeClusters clusters maxTasksPerFile)
  let fileBranchNames ← (List.range d.fFileNames.length).mapM (fun fileIdx =>
    GetMatchingBranchNames env (d.fFileNames.getD fileIdx "") (treeNameOf d fileIdx)
      d.fBranchNames d.fUseRegex)
  let fileResults ← (List.range d.fFileNames.length).mapM (fun fileIdx => do
    let fileName := d.fFileNames.getD fileIdx ""
    let treeName := treeNameOf d fileIdx
    let branchNames := fileBranchNames.getD fileIdx []
    let bds ← (rangesPerFile.getD fileIdx []).mapM
      (fun range => ReadTree env treeName fileName branchNames range)
    pure (sumBytes bds))
  pure (sumBytes fileResults)

/-- `EvalThroughput` of ReadSpeed.hxx (lines 376-388): validate the dataset
configuration, then dispatch to the single- or multi-threaded evaluator. -/
def EvalThroughput (env : Env) (d : Data) (nThreads hint : Nat) :
    Except Err ByteData :=
  if d.fTreeNames.isEmpty then .error .configNoTreeNames
  else if d.fFileNames.isEmpty then .error .configNoFileNames
  else if d.fBranchNames.isEmpty then .error .configNoBranchNames
  else if d.fTreeNames.length ≠ 1 ∧ d.fTreeNames.length ≠ d.fFileNames.length then
    .error .configTreeFileMismatch
  else if nThreads > 0 then EvalThroughputMT env d nThreads hint
  else EvalThroughputST env d

/-- A point `k` lies in one of the ranges of `cl`. -/
def covers (cl : List EntryRange) (k : Int) : Prop :=
  ∃ rg ∈ cl, rg.fStart ≤ k ∧ k < rg.fEnd

/-- Every range of the list is non-empty. -/
def PosRanges (cl : List EntryRange) : Prop :=
  ∀ rg ∈ cl, rg.fStart < rg.fEnd

/-- Consecutive ranges abut: each range ends where the next starts. -/
def Contiguous (cl : List EntryRange) : Prop :=
  List.Chain' (fun a b => a.fEnd = b.fStart) cl

/-- The contract of the external cluster iterator (spec §4.1/§6): the cluster
list of a tree with `n` entries is a contiguous ascending partition of
`[0, n)`, empty exactly for a tree with no entries. -/
def ClustersCover (cl : List EntryRange) (n : Int) : Prop :=
  PosRanges cl ∧ Contiguous cl ∧ (cl = [] → n ≤ 0) ∧
    (cl ≠ [] → (cl.headD ⟨0, 0⟩).fStart = 0 ∧ (cl.getLastD ⟨0, 0⟩).fEnd = n)

/-- The `treeIdx` counter of `EvalThroughputST` when file `j` is processed:
it was incremented once per earlier file when more than one tree name is
given, else it stays `0`. -/
def tIdxAt (d : Data) (j : Nat) : Nat :=
  if d.fTreeNames.length > 1 then j else 0

/-- The plain (unreduced) sum of uncompressed bytes that the read loop of
`ReadTree` accumulates over a range: entry by entry, branch by branch. -/
def fileEntrySumU (env : Env) (fileName treeName : String) (bns : List String)
    (r : EntryRange) : Nat :=
  ((rangeEntries r).map
    (fun e => (bns.map (fun b => env.uncompBytes fileName treeName b e)).sum)).sum

/-- The plain (unreduced) sum of compressed bytes over a range. -/
def fileEntrySumC (env : Env) (fileName treeName : String) (bns : List String)
    (r : EntryRange) : Nat :=
  ((rangeEntries r).map
    (fun e => (bns.map (fun b => env.compBytes fileName treeName b e)).sum)).sum

/-- Characterization of the `copy_if` result of `GetMatchingBranchNames`:
the tree's branch names, in enumeration order, that some selector matches
(`find_if` finds a first matching selector). -/
def matchedBranches (env : Env) (useRegex : Bool) (regexes bNames : List String) :
    List String :=
  bNames.filter (fun b => (regexes.find? (matchBranch env useRegex b)).isSome)

/-- Characterization of the final `usedRegexes` set of
`GetMatchingBranchNames`: the selectors that fired as the first match of at
least one branch name. -/
def firstMatchSet (env : Env) (useRegex : Bool) (regexes bNames : List String) :
    Finset String :=
  (bNames.filterMap (fun b => regexes.find? (matchBranch env useRegex b))).toFinset

instance (cl : List EntryRange) : Decidable (PosRanges cl) :=
  inferInstanceAs (Decidable (∀ rg ∈ cl, rg.fStart < rg.fEnd))

/-- A decision procedure for `Contiguous` that evaluates by reduction. -/
def decContiguous : ∀ cl : List EntryRange, Decidable (Contiguous cl)
  | [] => isTrue List.chain'_nil
  | [x] => isTrue (List.chain'_singleton x)
  | a :: b :: rest =>
    match decEq a.fEnd b.fStart, decContiguous (b :: rest) with
    | isTrue h1, isTrue h2 => isTrue (List.chain'_cons.mpr ⟨h1, h2⟩)
    | isFalse h1, _ => isFalse (fun hc => h1 (List.chain'_cons.mp hc).1)
    | _, isFalse h2 => isFalse (fun hc => h2 (List.chain'_cons.mp hc).2)

instance (cl : List EntryRange) : Decidable (Contiguous cl) := decContiguous cl

instance (cl : List EntryRange) (k : Int) : Decidable (covers cl k) :=
  inferInstanceAs (Decidable (∃ rg ∈ cl, rg.fStart ≤ k ∧ k < rg.fEnd))

instance (cl : List EntryRange) (n : Int) : Decidable (ClustersCover cl n) :=
  inferInstanceAs (Decidable (PosRanges cl ∧ Contiguous cl ∧ (cl = [] → n ≤ 0) ∧
    (cl ≠ [] → (cl.headD ⟨0, 0⟩).fStart = 0 ∧ (cl.getLastD ⟨0, 0⟩).fEnd = n)))

/-- A stub environment: every file opens as a zombie and holds no trees.
Used to exhibit that configuration validation fires before any collaborator
result is consulted. -/
def stubEnv : Env :=
  ⟨fun _ => true, fun _ _ => none, fun _ _ => 0, fun _ _ => [],
   fun _ _ _ _ => 0, fun _ _ _ _ => 0, fun _ _ => false⟩

/-- A small concrete environment: one healthy file `f.root` whose tree `t`
has branches `x` and `y`, four entries and two native clusters. -/
def envA : Env :=
  ⟨fun _ => false,
   fun f t => if f = "f.root" && t = "t" then some (.node 0 ["x", "y"] []) else none,
   fun _ _ => 4,
   fun _ _ => [⟨0, 2⟩, ⟨2, 4⟩],
   fun _ _ _ e => e.toNat + 1,
   fun _ _ _ _ => 1,
   fun _ _ => true⟩

theorem chunks_flatten (nFolds nRem : Nat) (cl : List EntryRange) :
    (chunks nFolds nRem cl).flatten = cl := by
  induction nRem, cl using chunks.induct nFolds with
  | case1 nRem => simp [chunks]
  | case2 nRem c cs ih =>
    simp only [chunks, List.flatten_cons, ih, List.cons_append]
    rw [List.take_append_drop]

theorem chunks_length_map (nFolds : Nat) (hf : 1 ≤ nFolds) :
    ∀ (m nRem : Nat) (cl : List EntryRange),
      cl.length = nFolds * m + nRem → nRem ≤ m →
      (chunks nFolds nRem cl).map List.length =
        List.replicate nRem (nFolds + 1) ++ List.replicate (m - nRem) nFolds := by
  intro m
  induction m with
  | zero =>
    intro nRem cl hlen hrem
    have h0 : nRem = 0 := Nat.le_zero.mp hrem
    subst h0
    have hnil : cl = [] := List.eq_nil_of_length_eq_zero (by omega)
    subst hnil
    simp [chunks]
  | succ m ih =>
    intro nRem cl hlen hrem
    match cl with
    | [] =>
      exfalso
      have h1 : 1 * (m + 1) ≤ nFolds * (m + 1) := Nat.mul_le_mul_right _ hf
      simp at hlen
      omega
    | c :: cs =>
      have hcs : cs.length = nFolds * (m + 1) + nRem - 1 := by
        simpa using congrArg (· - 1) hlen
      have h1 : 1 * (m + 1) ≤ nFolds * (m + 1) := Nat.mul_le_mul_right _ hf
      cases nRem with
      | zero =>
        have hg : grpExtra 0 = 0 := by simp [grpExtra]
        have htk : nFolds - 1 ≤ cs.length := by
          have : nFolds * (m + 1) = nFolds * m + nFolds := by ring
          omega
        have hdrop : (cs.drop (nFolds - 1)).length = nFolds * m := by
          have : nFolds * (m + 1) = nFolds * m + nFolds := by ring
          simp [List.length_drop]
          omega
        simp only [chunks, hg, Nat.add_zero]
        rw [List.map_cons, ih 0 _ (by simpa using hdrop) (Nat.zero_le m)]
        simp [List.length_take, Nat.min_eq_left htk, List.replicate_succ]
        omega
      | succ r =>
        have hg : grpExtra (r + 1) = 1 := by simp [grpExtra]
        have htk : nFolds ≤ cs.length := by
          have : nFolds * (m + 1) = nFolds * m + nFolds := by ring
          omega
        have hdrop : (cs.drop nFolds).length = nFolds * m + r := by
          have : nFolds * (m + 1) = nFolds * m + nFolds := by ring
          simp [List.length_drop]
          omega
        have hrm : r ≤ m := by omega
        simp only [chunks, hg, Nat.add_sub_cancel]
        rw [List.map_cons, ih r _ (by simpa using hdrop) hrm]
        simp [List.length_take, Nat.min_eq_left htk, List.replicate_succ]

theorem getLastD_cons_take (d c : EntryRange) (cs : List EntryRange) (k : Nat)
    (h : k ≤ cs.length) :
    (c :: cs.take k).getLastD d = (c :: cs).getD k c := by
  induction k generalizing d c cs with
  | zero => simp [List.getLastD, List.getD]
  | succ k ih =>
    match cs with
    | [] => simp at h
    | x :: xs =>
      have h' : k ≤ xs.length := by simpa using h
      have hin : k < (x :: xs).length := by simp; omega
      calc (c :: (x :: xs).take (k + 1)).getLastD d
          = (x :: xs.take k).getLastD c := by
            rw [List.take_succ_cons, List.getLastD_cons]
        _ = (x :: xs).getD k x := ih c x xs h'
        _ = (x :: xs).getD k c := by
            rw [List.getD_eq_getElem _ _ hin, List.getD_eq_getElem _ _ hin]
        _ = (c :: x :: xs).getD (k + 1) c := by simp [List.getD_cons_succ]

theorem mergeLoop_eq_chunks (nFolds : Nat) (hf : 1 ≤ nFolds) (d : EntryRange) :
    ∀ (m nRem : Nat) (cl : List EntryRange),
      cl.length = nFolds * m + nRem → nRem ≤ m →
      mergeLoop nFolds nRem cl = (chunks nFolds nRem cl).map (fuze d) := by
  intro m
  induction m with
  | zero =>
    intro nRem cl hlen hrem
    have h0 : nRem = 0 := Nat.le_zero.mp hrem
    subst h0
    have hnil : cl = [] := List.eq_nil_of_length_eq_zero (by omega)
    subst hnil
    simp [mergeLoop, chunks]
  | succ m ih =>
    intro nRem cl hlen hrem
    match cl with
    | [] =>
      exfalso
      have h1 : 1 * (m + 1) ≤ nFolds * (m + 1) := Nat.mul_le_mul_right _ hf
      simp at hlen
      omega
    | c :: cs =>
      have hmul : nFolds * (m + 1) = nFolds * m + nFolds := by ring
      have hcs : cs.length = nFolds * (m + 1) + nRem - 1 := by
        simpa using congrArg (· - 1) hlen
      have h1 : 1 * (m + 1) ≤ nFolds * (m + 1) := Nat.mul_le_mul_right _ hf
      have htk : nFolds + grpExtra nRem - 1 ≤ cs.length := by
        unfold grpExtra
        split <;> omega
      have hdrop : (cs.drop (nFolds + grpExtra nRem - 1)).length =
          nFolds * m + (nRem - grpExtra nRem) := by
        unfold grpExtra
        simp only [List.length_drop]
        split <;> omega
      have hrem' : nRem - grpExtra nRem ≤ m := by
        unfold grpExtra
        split <;> omega
      simp only [mergeLoop, chunks]
      rw [List.map_cons, ih _ _ hdrop hrem']
      have hfz : fuze d (c :: cs.take (nFolds + grpExtra nRem - 1)) =
          (⟨c.fStart, ((c :: cs).getD (nFolds + grpExtra nRem - 1) c).fEnd⟩ : EntryRange) := by
        unfold fuze
        rw [getLastD_cons_take d c cs _ htk]
        simp
      rw [hfz]

theorem chunks_length (nFolds : Nat) (hf : 1 ≤ nFolds) (m nRem : Nat)
    (cl : List EntryRange) (hlen : cl.length = nFolds * m + nRem) (hrem : nRem ≤ m) :
    (chunks nFolds nRem cl).length = m := by
  have h := congrArg List.length (chunks_length_map nFolds hf m nRem cl hlen hrem)
  simp only [List.length_map, List.length_append, List.length_replicate] at h
  omega

theorem mergeLoop_length (nFolds : Nat) (hf : 1 ≤ nFolds) (m nRem : Nat)
    (cl : List EntryRange) (hlen : cl.length = nFolds * m + nRem) (hrem : nRem ≤ m) :
    (mergeLoop nFolds nRem cl).length = m := by
  rw [mergeLoop_eq_chunks nFolds hf ⟨0, 0⟩ m nRem cl hlen hrem, List.length_map]
  exact chunks_length nFolds hf m nRem cl hlen hrem

theorem div_mul_mod_invariant (n cap : Nat) : n = n / cap * cap + n % cap := by
  rw [mul_comm]
  exact (Nat.div_add_mod n cap).symm

theorem mergeFileClusters_spec (cap : Nat) (hcap : 1 ≤ cap) (cl : List EntryRange) :
    ∃ o, mergeFileClusters cap cl = some o ∧ o.length = min cl.length cap ∧
      (cl.length / cap = 0 → o = cl) ∧ (0 < cl.length / cap → o.length = cap) := by
  have hcap0 : cap ≠ 0 := by omega
  by_cases h : cl.length / cap = 0
  · have hlt : cl.length < cap := by
      by_contra h'
      push_neg at h'
      have := (Nat.one_le_div_iff (by omega)).mpr h'
      omega
    exact ⟨cl, by simp [mergeFileClusters, hcap0, h], by omega, fun _ => rfl,
      fun hh => by omega⟩
  · have hf : 1 ≤ cl.length / cap := Nat.one_le_iff_ne_zero.mpr h
    have hge : cap ≤ cl.length := (Nat.one_le_div_iff (by omega)).mp hf
    have hrem : cl.length % cap ≤ cap := le_of_lt (Nat.mod_lt _ (by omega))
    have hlen := mergeLoop_length (cl.length / cap) hf cap (cl.length % cap) cl
      (div_mul_mod_invariant cl.length cap) hrem
    refine ⟨_, by simp [mergeFileClusters, hcap0, h], ?_, fun hh => absurd hh h, fun _ => hlen⟩
    omega

theorem mapM_option_forall {α β : Type} (f : α → Option β) (P : α → β → Prop) :
    ∀ L : List α, (∀ a ∈ L, ∃ b, f a = some b ∧ P a b) →
      ∃ out, L.mapM f = some out ∧ List.Forall₂ P L out := by
  intro L
  induction L with
  | nil => exact fun _ => ⟨[], rfl, .nil⟩
  | cons a as ih =>
    intro h
    obtain ⟨b, hb, hPb⟩ := h a (List.mem_cons_self a as)
    obtain ⟨out, hout, hP⟩ := ih (fun x hx => h x (List.mem_cons_of_mem _ hx))
    exact ⟨b :: out, by rw [List.mapM_cons, hb, hout]; rfl, .cons hPb hP⟩

theorem mapM_option_id {α : Type} (f : α → Option α) :
    ∀ L : List α, (∀ a ∈ L, f a = some a) → L.mapM f = some L := by
  intro L
  induction L with
  | nil => exact fun _ => rfl
  | cons a as ih =>
    intro h
    have ha := h a (List.mem_cons_self a as)
    have has := ih (fun x hx => h x (List.mem_cons_of_mem _ hx))
    rw [List.mapM_cons, ha, has]
    rfl

theorem mergeLoop_one_zero : ∀ cl : List EntryRange, mergeLoop 1 0 cl = cl := by
  intro cl
  induction cl with
  | nil => simp [mergeLoop]
  | cons c cs ih => simp [mergeLoop, grpExtra, ih]

/-- C2: for every per-file cluster list and every `maxTasksPerFile ≥ 1`,
`MergeClusters` produces for that file a list of length exactly
`min n maxTasksPerFile`; when `n / maxTasksPerFile > 0` that length is
exactly `maxTasksPerFile`, and when the quotient is `0` the file's list is
returned unchanged. -/
theorem C2_mergeClusters_length (L : List (List EntryRange)) (cap : Nat)
    (hcap : 1 ≤ cap) :
    ∃ out, MergeClusters L cap = some out ∧
      List.Forall₂ (fun cl o => o.length = min cl.length cap ∧
        (cl.length / cap = 0 → o = cl) ∧ (0 < cl.length / cap → o.length = cap)) L out := by
  unfold MergeClusters
  exact mapM_option_forall _ _ L (fun cl _ => by
    obtain ⟨o, ho, h1, h2, h3⟩ := mergeFileClusters_spec cap hcap cl
    exact ⟨o, ho, h1, h2, h3⟩)

theorem C2_witness :
    1 ≤ 2 ∧ ∃ out, MergeClusters [[⟨0, 2⟩, ⟨2, 4⟩, ⟨4, 6⟩]] 2 = some out ∧
      List.Forall₂ (fun cl o => o.length = min cl.length 2 ∧
        (cl.length / 2 = 0 → o = cl) ∧ (0 < cl.length / 2 → o.length = 2))
        [[⟨0, 2⟩, ⟨2, 4⟩, ⟨4, 6⟩]] out :=
  ⟨by decide, C2_mergeClusters_length [[⟨0, 2⟩, ⟨2, 4⟩, ⟨4, 6⟩]] 2 (by decide)⟩

/-- C4 counterexample: with `maxTasksPerFile == 0` and a non-empty file list,
`MergeClusters` does not return the cluster lists unchanged — the unsigned
division `nClustersInThisFile / maxTasksPerFile` divides by zero (undefined
behavior, modelled as `none`). -/
theorem C4_counterexample : MergeClusters [[⟨0, 10⟩]] 0 ≠ some [[⟨0, 10⟩]] := by
  decide

/-- C4 amended: calling `MergeClusters` with `maxTasksPerFile == 0` runs the
unsigned division `nClustersInThisFile / maxTasksPerFile` with a zero
divisor for every file present — undefined behavior in C++, modelled as a
fault (`none`) — so for any non-empty list of files the merge faults rather
than returning the input unchanged (only the empty file list returns
unchanged, as no division is executed). -/
theorem C4_merge_cap_zero (cl : List EntryRange) (L : List (List EntryRange)) :
    MergeClusters (cl :: L) 0 = none ∧ MergeClusters [] 0 = some [] := by
  constructor
  · have h0 : mergeFileClusters 0 cl = none := rfl
    unfold MergeClusters
    rw [List.mapM_cons, h0]
    rfl
  · rfl

/-- C5 counterexample: the claim fails at cap `c = 0`.  The already-merged
list `[[]]` (a file whose tree has no entries) arises as
`MergeClusters [[]] 1`; `c = 0` is at least each file's current length, yet
re-merging with cap `0` divides by zero instead of returning it unchanged. -/
theorem C5_counterexample :
    MergeClusters [([] : List EntryRange)] 1 = some [[]] ∧
    (∀ l ∈ [([] : List EntryRange)], l.length ≤ 0) ∧
    MergeClusters [([] : List EntryRange)] 0 ≠ some [[]] := by
  refine ⟨by decide, by decide, by decide⟩

/-- C5 amended: `MergeClusters` is idempotent at or above the current length
for caps `≥ 1`: if `L` was produced by a merge and `c ≥ 1` is at least the
length of each file's list in `L`, merging `L` again with cap `c` returns
`L` unchanged. -/
theorem C5_merge_idempotent (L0 L : List (List EntryRange)) (c0 c : Nat)
    (_h0 : MergeClusters L0 c0 = some L) (hc : 1 ≤ c)
    (hlen : ∀ l ∈ L, l.length ≤ c) :
    MergeClusters L c = some L := by
  unfold MergeClusters
  refine mapM_option_id _ L (fun l hl => ?_)
  have hc0 : c ≠ 0 := by omega
  rcases lt_or_eq_of_le (hlen l hl) with hlt | heq
  · have hdiv : l.length / c = 0 := Nat.div_eq_of_lt hlt
    simp [mergeFileClusters, hc0, hdiv]
  · have hdiv : l.length / c = 1 := by rw [heq, Nat.div_self (by omega)]
    have hmod : l.length % c = 0 := by rw [heq, Nat.mod_self]
    simp [mergeFileClusters, hc0, hdiv, hmod, mergeLoop_one_zero]

theorem C5_witness :
    MergeClusters ([[⟨0, 5⟩, ⟨5, 9⟩]] : List (List EntryRange)) 3 =
        some [[⟨0, 5⟩, ⟨5, 9⟩]] ∧ 1 ≤ 3 ∧
    (∀ l ∈ ([[⟨0, 5⟩, ⟨5, 9⟩]] : List (List EntryRange)), l.length ≤ 3) ∧
    MergeClusters ([[⟨0, 5⟩, ⟨5, 9⟩]] : List (List EntryRange)) 3 =
        some [[⟨0, 5⟩, ⟨5, 9⟩]] :=
  ⟨by decide, by decide, by decide,
    C5_merge_idempotent [[⟨0, 5⟩, ⟨5, 9⟩]] [[⟨0, 5⟩, ⟨5, 9⟩]] 3 3
      (by decide) (by decide) (by decide)⟩

theorem add64_assoc (a b c : Nat) : add64 (add64 a b) c = add64 a (add64 b c) := by
  unfold add64
  rw [Nat.mod_add_mod, Nat.add_mod_mod, Nat.add_assoc]

theorem add64_comm (a b : Nat) : add64 a b = add64 b a := by
  unfold add64
  rw [Nat.add_comm]

theorem add64_zero (a : Nat) (h : a < U64) : add64 a 0 = a := by
  unfold add64
  rw [Nat.add_zero, Nat.mod_eq_of_lt h]

theorem foldl_combine_pair :
    ∀ (l : List ByteData) (accU accC : Nat),
      l.foldl ByteData.combine ⟨accU, accC⟩ =
        ⟨l.foldl (fun sum o => add64 sum o.fUncompressedBytesRead) accU,
         l.foldl (fun sum o => add64 sum o.fCompressedBytesRead) accC⟩ := by
  intro l
  induction l with
  | nil => intro accU accC; rfl
  | cons o rest ih => intro accU accC; exact ih _ _

theorem sumBytes_eq_foldl_combine (l : List ByteData) :
    sumBytes l = l.foldl ByteData.combine ByteData.identity := by
  rw [sumBytes, ByteData.identity, foldl_combine_pair]

/-- C6: `ByteData` combination — the pointwise `ULong64_t` sum with which
`sumBytes` folds per-task results — is associative and commutative with
identity `{0, 0}` (for in-range counters), and `sumBytes` is exactly the
fold of this combination over the task results. -/
theorem C6_byteData_monoid (x a b c : ByteData) (l : List ByteData)
    (hx1 : x.fUncompressedBytesRead < U64) (hx2 : x.fCompressedBytesRead < U64) :
    (a.combine b).combine c = a.combine (b.combine c) ∧
    a.combine b = b.combine a ∧
    x.combine ByteData.identity = x ∧
    sumBytes l = l.foldl ByteData.combine ByteData.identity := by
  refine ⟨?_, ?_, ?_, sumBytes_eq_foldl_combine l⟩
  · unfold ByteData.combine
    rw [add64_assoc, add64_assoc]
  · unfold ByteData.combine
    rw [add64_comm a.fUncompressedBytesRead, add64_comm a.fCompressedBytesRead]
  · unfold ByteData.combine ByteData.identity
    rw [add64_zero _ hx1, add64_zero _ hx2]

theorem C6_witness :
    ((⟨7, 9⟩ : ByteData).fUncompressedBytesRead < U64 ∧
     (⟨7, 9⟩ : ByteData).fCompressedBytesRead < U64) ∧
    ((⟨1, 2⟩ : ByteData).combine ⟨3, 4⟩).combine ⟨5, 6⟩ =
        (⟨1, 2⟩ : ByteData).combine ((⟨3, 4⟩ : ByteData).combine ⟨5, 6⟩) ∧
    (⟨1, 2⟩ : ByteData).combine ⟨3, 4⟩ = (⟨3, 4⟩ : ByteData).combine ⟨1, 2⟩ ∧
    (⟨7, 9⟩ : ByteData).combine ByteData.identity = ⟨7, 9⟩ ∧
    sumBytes [⟨1, 2⟩, ⟨3, 4⟩] =
      [(⟨1, 2⟩ : ByteData), ⟨3, 4⟩].foldl ByteData.combine ByteData.identity :=
  ⟨⟨by decide, by decide⟩,
    C6_byteData_monoid ⟨7, 9⟩ ⟨1, 2⟩ ⟨3, 4⟩ ⟨5, 6⟩ [⟨1, 2⟩, ⟨3, 4⟩]
      (by decide) (by decide)⟩

theorem covers_cons (x : EntryRange) (l : List EntryRange) (k : Int) :
    covers (x :: l) k ↔ (x.fStart ≤ k ∧ k < x.fEnd) ∨ covers l k := by
  simp only [covers, List.mem_cons]
  constructor
  · rintro ⟨rg, rfl | hm, h⟩
    · exact Or.inl h
    · exact Or.inr ⟨rg, hm, h⟩
  · rintro (h | ⟨rg, hm, h⟩)
    · exact ⟨x, Or.inl rfl, h⟩
    · exact ⟨rg, Or.inr hm, h⟩

theorem covers_flatten (L : List (List EntryRange)) (k : Int) :
    covers L.flatten k ↔ ∃ g ∈ L, covers g k := by
  simp only [covers, List.mem_flatten]
  constructor
  · rintro ⟨rg, ⟨g, hg, hm⟩, h⟩
    exact ⟨g, hg, rg, hm, h⟩
  · rintro ⟨g, hg, rg, hm, h⟩
    exact ⟨rg, ⟨g, hg, hm⟩, h⟩

theorem covers_iff_interval (d : EntryRange) :
    ∀ cl : List EntryRange, PosRanges cl → Contiguous cl → cl ≠ [] →
      ∀ k : Int, covers cl k ↔
        (cl.headD d).fStart ≤ k ∧ k < (cl.getLastD d).fEnd := by
  intro cl
  induction cl with
  | nil => intro _ _ h; exact absurd rfl h
  | cons x tl ih =>
    intro hpos hch _ k
    match tl with
    | [] =>
      rw [covers_cons]
      simp [covers, List.getLastD]
    | y :: tl' =>
      have hxy : x.fEnd = y.fStart := (List.chain'_cons.mp hch).1
      have hpos' : PosRanges (y :: tl') :=
        fun rg h => hpos rg (List.mem_cons_of_mem _ h)
      have hy := ih hpos' ((List.chain'_cons.mp hch).2) (List.cons_ne_nil _ _)
      have hyc : covers (y :: tl') y.fStart :=
        ⟨y, List.mem_cons_self _ _, le_refl _, hpos' y (List.mem_cons_self _ _)⟩
      have hbound : y.fStart < (((y :: tl') : List EntryRange).getLastD d).fEnd :=
        ((hy y.fStart).mp hyc).2
      have hx : x.fStart < x.fEnd := hpos x (List.mem_cons_self _ _)
      rw [covers_cons, hy k]
      simp only [List.getLastD_cons, List.headD_cons] at hbound ⊢
      constructor
      · rintro (h | h) <;> omega
      · intro h
        by_cases hk : k < x.fEnd
        · exact Or.inl ⟨h.1, hk⟩
        · exact Or.inr ⟨by omega, h.2⟩

theorem head_end_le (x : EntryRange) :
    ∀ l : List EntryRange, PosRanges l → Contiguous (x :: l) →
      ∀ b ∈ l, x.fEnd ≤ b.fStart := by
  intro l
  induction l generalizing x with
  | nil => intro _ _ b hb; exact absurd hb (List.not_mem_nil b)
  | cons y tl ih =>
    intro hpos hch b hb
    have hxy : x.fEnd = y.fStart := (List.chain'_cons.mp hch).1
    rcases List.mem_cons.mp hb with rfl | hb'
    · exact le_of_eq hxy
    · have h1 : y.fEnd ≤ b.fStart :=
        ih y (fun rg h => hpos rg (List.mem_cons_of_mem _ h))
          ((List.chain'_cons.mp hch).2) b hb'
      have h2 : y.fStart < y.fEnd := hpos y (List.mem_cons_self _ _)
      omega

theorem pairwise_disjoint_of_contig :
    ∀ l : List EntryRange, PosRanges l → Contiguous l →
      List.Pairwise (fun a b => a.fEnd ≤ b.fStart) l := by
  intro l
  induction l with
  | nil => intro _ _; exact List.Pairwise.nil
  | cons x tl ih =>
    intro hpos hch
    have hpos' : PosRanges tl := fun rg h => hpos rg (List.mem_cons_of_mem _ h)
    exact List.Pairwise.cons (head_end_le x tl hpos' hch) (ih hpos' hch.tail)

theorem chain'_imp_mem {α : Type} {R S : α → α → Prop} :
    ∀ l : List α, List.Chain' R l →
      (∀ a ∈ l, ∀ b ∈ l, R a b → S a b) → List.Chain' S l := by
  intro l
  induction l with
  | nil => intro _ _; exact List.chain'_nil
  | cons x tl ih =>
    intro hch himp
    match tl with
    | [] => exact List.chain'_singleton x
    | y :: tl' =>
      rw [List.chain'_cons] at hch ⊢
      refine ⟨himp x (List.mem_cons_self _ _)
        y (List.mem_cons_of_mem _ (List.mem_cons_self _ _)) hch.1, ?_⟩
      exact ih hch.2 (fun a ha b hb h =>
        himp a (List.mem_cons_of_mem _ ha) b (List.mem_cons_of_mem _ hb) h)

theorem chunks_sizes_mem (nFolds : Nat) (hf : 1 ≤ nFolds) (m nRem : Nat)
    (cl : List EntryRange) (hlen : cl.length = nFolds * m + nRem) (hrem : nRem ≤ m) :
    ∀ g ∈ chunks nFolds nRem cl, g ≠ [] := by
  intro g hg
  have hmem := List.mem_map_of_mem List.length hg
  rw [chunks_length_map nFolds hf m nRem cl hlen hrem] at hmem
  rcases List.mem_append.mp hmem with h | h
  · have hval := (List.mem_replicate.mp h).2
    intro hnil
    rw [hnil] at hval
    simp at hval
  · have hval := (List.mem_replicate.mp h).2
    intro hnil
    rw [hnil] at hval
    simp at hval
    omega

theorem mergeFileClusters_partition (cl : List EntryRange) (cap : Nat) (hcap : 1 ≤ cap)
    (hfold : 0 < cl.length / cap) (hpos : PosRanges cl) (hch : Contiguous cl) :
    ∃ (out : List EntryRange) (groups : List (List EntryRange)),
      mergeFileClusters cap cl = some out ∧
      groups.flatten = cl ∧
      out = groups.map (fuze ⟨0, 0⟩) ∧
      groups.map List.length =
        List.replicate (cl.length % cap) (cl.length / cap + 1) ++
        List.replicate (cap - cl.length % cap) (cl.length / cap) ∧
      PosRanges out ∧ Contiguous out ∧
      List.Pairwise (fun a b => a.fEnd ≤ b.fStart) out ∧
      (∀ k : Int, covers out k ↔ covers cl k) := by
  have hcap0 : cap ≠ 0 := by omega
  have hf : 1 ≤ cl.length / cap := hfold
  have hne0 : cl.length / cap ≠ 0 := by omega
  have hinv := div_mul_mod_invariant cl.length cap
  have hrem : cl.length % cap ≤ cap := le_of_lt (Nat.mod_lt _ (by omega))
  obtain ⟨groups, hgroups⟩ :
      ∃ g, chunks (cl.length / cap) (cl.length % cap) cl = g := ⟨_, rfl⟩
  have hflat : groups.flatten = cl := by
    rw [← hgroups]
    exact chunks_flatten _ _ _
  have hsizes : groups.map List.length =
      List.replicate (cl.length % cap) (cl.length / cap + 1) ++
      List.replicate (cap - cl.length % cap) (cl.length / cap) := by
    rw [← hgroups]
    exact chunks_length_map _ hf cap _ cl hinv hrem
  have hout : mergeLoop (cl.length / cap) (cl.length % cap) cl =
      groups.map (fuze ⟨0, 0⟩) := by
    rw [← hgroups]
    exact mergeLoop_eq_chunks _ hf ⟨0, 0⟩ cap _ cl hinv hrem
  have hgne : ∀ g ∈ groups, g ≠ [] := by
    rw [← hgroups]
    exact chunks_sizes_mem _ hf cap _ cl hinv hrem
  refine ⟨groups.map (fuze ⟨0, 0⟩), groups,
    by rw [mergeFileClusters]; simp [hcap0, hne0, hout],
    hflat, rfl, hsizes, ?_⟩
  have hgpos : ∀ g ∈ groups, PosRanges g := by
    intro g hg rg hrg
    exact hpos rg (hflat ▸ List.mem_flatten.mpr ⟨g, hg, hrg⟩)
  have hgch : ∀ g ∈ groups, Contiguous g := by
    intro g hg
    exact List.Chain'.infix (hflat ▸ hch) (List.infix_of_mem_flatten hg)
  have hiv : ∀ g ∈ groups, ∀ k : Int,
      ((fuze ⟨0, 0⟩ g).fStart ≤ k ∧ k < (fuze ⟨0, 0⟩ g).fEnd) ↔ covers g k := by
    intro g hg k
    exact (covers_iff_interval ⟨0, 0⟩ g (hgpos g hg) (hgch g hg) (hgne g hg) k).symm
  have hposout : PosRanges (groups.map (fuze ⟨0, 0⟩)) := by
    intro rg hrg
    obtain ⟨g, hg, rfl⟩ := List.mem_map.mp hrg
    have hcov : covers g (g.headD ⟨0, 0⟩).fStart := by
      match g, hgne g hg with
      | a :: t, _ =>
        exact ⟨a, List.mem_cons_self _ _, le_refl _,
          hgpos _ hg a (List.mem_cons_self _ _)⟩
    exact ((hiv g hg _).mpr hcov).2
  have hchout : Contiguous (groups.map (fuze ⟨0, 0⟩)) := by
    unfold Contiguous
    rw [List.chain'_map]
    have hnil : [] ∉ groups := fun h => hgne [] h rfl
    have hgchain := ((List.chain'_flatten hnil).mp (hflat ▸ hch)).2
    refine chain'_imp_mem groups hgchain ?_
    intro g1 hg1 g2 hg2 hr
    match g1, hgne g1 hg1, g2, hgne g2 hg2 with
    | a1 :: t1, _, a2 :: t2, _ =>
      have h1 : (a1 :: t1).getLast? = some ((a1 :: t1).getLastD ⟨0, 0⟩) := by
        rw [List.getLastD_eq_getLast?]
        cases h : (a1 :: t1).getLast? with
        | none => exact absurd h (by simp)
        | some v => rfl
      have h2 : (a2 :: t2).head? = some a2 := rfl
      have := hr _ (by rw [h1]; rfl) a2 (by rw [h2]; rfl)
      simpa [fuze] using this
  refine ⟨hposout, hchout, pairwise_disjoint_of_contig _ hposout hchout, ?_⟩
  intro k
  constructor
  · intro hc
    obtain ⟨rg, hrg, hk⟩ := hc
    obtain ⟨g, hg, rfl⟩ := List.mem_map.mp hrg
    have := (hiv g hg k).mp hk
    rw [← hflat]
    exact (covers_flatten groups k).mpr ⟨g, hg, this⟩
  · intro hc
    rw [← hflat] at hc
    obtain ⟨g, hg, hgk⟩ := (covers_flatten groups k).mp hc
    exact ⟨fuze ⟨0, 0⟩ g, List.mem_map_of_mem _ hg, (hiv g hg k).mpr hgk⟩

/-- C3: for a contiguous ascending per-file cluster list with
`folds = n / cap > 0`, `MergeClusters` (through its per-file loop
`mergeFileClusters`) fuses consecutive clusters into an order-preserving
partition: there is a grouping of the input into consecutive runs — first
`n % cap` runs of `folds + 1` clusters, then runs of `folds` — whose
concatenation is the input (no cluster split, reordered or duplicated), the
output ranges are the endpoint fusions of the runs, are themselves
contiguous, non-empty and pairwise disjoint, and cover exactly the same
entry indices as the input (no index gained, lost, or duplicated). -/
theorem C3_merge_partition (cl : List EntryRange) (cap : Nat) (hcap : 1 ≤ cap)
    (hfold : 0 < cl.length / cap) (hpos : PosRanges cl) (hch : Contiguous cl) :
    ∃ (out : List EntryRange) (groups : List (List EntryRange)),
      mergeFileClusters cap cl = some out ∧
      groups.flatten = cl ∧
      out = groups.map (fuze ⟨0, 0⟩) ∧
      groups.map List.length =
        List.replicate (cl.length % cap) (cl.length / cap + 1) ++
        List.replicate (cap - cl.length % cap) (cl.length / cap) ∧
      PosRanges out ∧ Contiguous out ∧
      List.Pairwise (fun a b => a.fEnd ≤ b.fStart) out ∧
      (∀ k : Int, covers out k ↔ covers cl k) :=
  mergeFileClusters_partition cl cap hcap hfold hpos hch

theorem C3_witness :
    (1 ≤ 2 ∧ 0 < ([(⟨0, 2⟩ : EntryRange), ⟨2, 4⟩, ⟨4, 6⟩].length / 2) ∧
      PosRanges [⟨0, 2⟩, ⟨2, 4⟩, ⟨4, 6⟩] ∧ Contiguous [⟨0, 2⟩, ⟨2, 4⟩, ⟨4, 6⟩]) ∧
    ∃ (out : List EntryRange) (groups : List (List EntryRange)),
      mergeFileClusters 2 [⟨0, 2⟩, ⟨2, 4⟩, ⟨4, 6⟩] = some out ∧
      groups.flatten = [⟨0, 2⟩, ⟨2, 4⟩, ⟨4, 6⟩] ∧
      out = groups.map (fuze ⟨0, 0⟩) ∧
      groups.map List.length =
        List.replicate ([(⟨0, 2⟩ : EntryRange), ⟨2, 4⟩, ⟨4, 6⟩].length % 2)
          ([(⟨0, 2⟩ : EntryRange), ⟨2, 4⟩, ⟨4, 6⟩].length / 2 + 1) ++
        List.replicate (2 - [(⟨0, 2⟩ : EntryRange), ⟨2, 4⟩, ⟨4, 6⟩].length % 2)
          ([(⟨0, 2⟩ : EntryRange), ⟨2, 4⟩, ⟨4, 6⟩].length / 2) ∧
      PosRanges out ∧ Contiguous out ∧
      List.Pairwise (fun a b => a.fEnd ≤ b.fStart) out ∧
      (∀ k : Int, covers out k ↔ covers [⟨0, 2⟩, ⟨2, 4⟩, ⟨4, 6⟩] k) :=
  ⟨⟨by decide, by decide, by decide, by decide⟩,
    C3_merge_partition [⟨0, 2⟩, ⟨2, 4⟩, ⟨4, 6⟩] 2
      (by decide) (by decide) (by decide) (by decide)⟩

/-- C7: a dataset configuration with zero tree names, zero file names, zero
branch selectors, or a tree-name count that is neither 1 nor the file count
makes `EvalThroughput` fail with a configuration error, for every
environment (so before any file I/O or collaborator call can influence the
outcome) and every worker count. -/
theorem C7_validation (d : Data)
    (hbad : d.fTreeNames = [] ∨ d.fFileNames = [] ∨ d.fBranchNames = [] ∨
      (d.fTreeNames.length ≠ 1 ∧ d.fTreeNames.length ≠ d.fFileNames.length)) :
    ∀ (env : Env) (nThreads hint : Nat),
      ∃ e, EvalThroughput env d nThreads hint = .error e ∧ e.isConfig = true := by
  intro env nThreads hint
  unfold EvalThroughput
  by_cases h1 : d.fTreeNames = []
  · refine ⟨.configNoTreeNames, ?_, rfl⟩
    simp [h1]
  · by_cases h2 : d.fFileNames = []
    · refine ⟨.configNoFileNames, ?_, rfl⟩
      simp [h1, h2]
    · by_cases h3 : d.fBranchNames = []
      · refine ⟨.configNoBranchNames, ?_, rfl⟩
        simp [h1, h2, h3]
      · have h4 : d.fTreeNames.length ≠ 1 ∧ d.fTreeNames.length ≠ d.fFileNames.length := by
          rcases hbad with h | h | h | h
          · exact absurd h h1
          · exact absurd h h2
          · exact absurd h h3
          · exact h
        refine ⟨.configTreeFileMismatch, ?_, rfl⟩
        simp [h1, h2, h3, h4]

theorem C7_witness :
    (Data.fTreeNames ⟨["a", "b"], ["f.root"], ["x"], false⟩ = [] ∨
     Data.fFileNames ⟨["a", "b"], ["f.root"], ["x"], false⟩ = [] ∨
     Data.fBranchNames ⟨["a", "b"], ["f.root"], ["x"], false⟩ = [] ∨
     ((Data.fTreeNames ⟨["a", "b"], ["f.root"], ["x"], false⟩).length ≠ 1 ∧
      (Data.fTreeNames ⟨["a", "b"], ["f.root"], ["x"], false⟩).length ≠
        (Data.fFileNames ⟨["a", "b"], ["f.root"], ["x"], false⟩).length)) ∧
    ∃ e, EvalThroughput stubEnv ⟨["a", "b"], ["f.root"], ["x"], false⟩ 0 1 =
        .error e ∧ e.isConfig = true :=
  ⟨by decide,
    C7_validation ⟨["a", "b"], ["f.root"], ["x"], false⟩ (by decide) stubEnv 0 1⟩

theorem filterPass_fst (env : Env) (u : Bool) (rs : List String) :
    ∀ (bs : List String) (used : Finset String),
      (filterPass env u rs bs used).1 = matchedBranches env u rs bs := by
  intro bs
  induction bs with
  | nil => intro used; rfl
  | cons b rest ih =>
    intro used
    rw [filterPass, matchedBranches]
    cases h : rs.find? (matchBranch env u b) with
    | some r =>
      rw [List.filter_cons]
      simp only [h, Option.isSome_some, if_pos]
      exact congrArg (b :: ·) (ih (insert r used))
    | none =>
      rw [List.filter_cons]
      simp only [h, Option.isSome_none, Bool.false_eq_true, if_false]
      exact ih used

theorem filterPass_snd (env : Env) (u : Bool) (rs : List String) :
    ∀ (bs : List String) (used : Finset String),
      (filterPass env u rs bs used).2 = used ∪ firstMatchSet env u rs bs := by
  intro bs
  induction bs with
  | nil =>
    intro used
    simp [filterPass, firstMatchSet]
  | cons b rest ih =>
    intro used
    rw [filterPass, firstMatchSet, List.filterMap_cons]
    cases h : rs.find? (matchBranch env u b) with
    | some r =>
      simp only [h]
      rw [ih (insert r used)]
      unfold firstMatchSet
      ext x
      simp only [Finset.mem_union, Finset.mem_insert, List.mem_toFinset, List.mem_cons]
      tauto
    | none =>
      simp only [h]
      exact ih used

theorem processBranches_inv (fr : String) :
    ∀ (bs : List String) (reg : Finset String) (names : List String),
      names.Nodup → (∀ x ∈ names, x ∈ reg) →
      (processBranches fr bs reg names).2.Nodup ∧
      ∀ x ∈ (processBranches fr bs reg names).2, x ∈ (processBranches fr bs reg names).1 := by
  intro bs
  induction bs with
  | nil => intro reg names h1 h2; exact ⟨h1, h2⟩
  | cons name rest ih =>
    intro reg names h1 h2
    rw [processBranches]
    have happend : ∀ y : String, y ∉ reg →
        (names ++ [y]).Nodup ∧ ∀ x ∈ names ++ [y], x ∈ insert y reg := by
      intro y hy
      constructor
      · refine List.Nodup.append h1 (List.nodup_singleton y) ?_
        intro a ha hb
        rw [List.mem_singleton] at hb
        subst hb
        exact hy (h2 a ha)
      · intro x hx
        rcases List.mem_append.mp hx with hx' | hx'
        · exact Finset.mem_insert_of_mem (h2 x hx')
        · rw [List.mem_singleton] at hx'
          subst hx'
          exact Finset.mem_insert_self x reg
    by_cases hn : name ∉ reg
    · rw [if_pos hn]
      have h := happend name hn
      exact ih _ _ h.1 h.2
    · rw [if_neg hn]
      by_cases hf : fr ≠ ""
      · rw [if_pos hf]
        by_cases hl : fr ++ "." ++ name ∉ reg
        · rw [if_pos hl]
          have h := happend _ hl
          exact ih _ _ h.1 h.2
        · rw [if_neg hl]
          exact ih _ _ h1 h2
      · rw [if_neg hf]
        exact ih _ _ h1 h2

mutual

theorem impl_inv : ∀ (t : TTree) (reg : Finset String) (names : List String)
    (an : Finset Nat) (fr : String), names.Nodup → (∀ x ∈ names, x ∈ reg) →
    (GetTopLevelBranchNamesImpl t reg names an fr).2.1.Nodup ∧
    ∀ x ∈ (GetTopLevelBranchNamesImpl t reg names an fr).2.1,
      x ∈ (GetTopLevelBranchNamesImpl t reg names an fr).1
  | .node i branches friendTrees, reg, names, an, fr, h1, h2 => by
    rw [GetTopLevelBranchNamesImpl]
    by_cases hmem : i ∈ an
    · rw [if_pos hmem]
      exact ⟨h1, h2⟩
    · rw [if_neg hmem]
      have hp := processBranches_inv fr branches reg names h1 h2
      exact implFriends_inv friendTrees _ _ _ fr hp.1 hp.2

theorem implFriends_inv : ∀ (fts : List (String × TTree)) (reg : Finset String)
    (names : List String) (an : Finset Nat) (fr : String),
    names.Nodup → (∀ x ∈ names, x ∈ reg) →
    (implFriends fts reg names an).2.1.Nodup ∧
    ∀ x ∈ (implFriends fts reg names an).2.1, x ∈ (implFriends fts reg names an).1
  | [], reg, names, an, fr, h1, h2 => by
    rw [implFriends]
    exact ⟨h1, h2⟩
  | (frName, ft) :: rest, reg, names, an, fr, h1, h2 => by
    rw [implFriends]
    have hq := impl_inv ft reg names an frName h1 h2
    exact implFriends_inv rest _ _ _ fr hq.1 hq.2

end

theorem getTopLevelBranchNames_nodup (t : TTree) :
    (GetTopLevelBranchNames t).Nodup := by
  have h := impl_inv t ∅ [] ∅ "" List.nodup_nil
    (fun x hx => absurd hx (List.not_mem_nil x))
  exact h.1

theorem getMatching_characterization (env : Env) (fileName treeName : String)
    (regexes : List String) (useRegex : Bool) (t : TTree)
    (hz : env.isZombie fileName = false)
    (ht : env.getTree fileName treeName = some t) :
    GetMatchingBranchNames env fileName treeName regexes useRegex =
      if matchedBranches env useRegex regexes (GetTopLevelBranchNames t) = [] ∧
          useRegex = true
      then .error .regexNoMatch
      else if (firstMatchSet env useRegex regexes (GetTopLevelBranchNames t)).card ≠
          regexes.length
      then .error .selectorsUnused
      else .ok (matchedBranches env useRegex regexes (GetTopLevelBranchNames t)) := by
  rw [GetMatchingBranchNames, hz, ht]
  simp only [Bool.false_eq_true, if_false]
  rw [filterPass_fst, filterPass_snd, Finset.empty_union]
  by_cases hc1 : matchedBranches env useRegex regexes (GetTopLevelBranchNames t) = [] ∧
      useRegex = true
  · have hb : ((matchedBranches env useRegex regexes
        (GetTopLevelBranchNames t)).isEmpty && useRegex) = true := by
      rw [List.isEmpty_iff.mpr hc1.1, hc1.2]
      rfl
    rw [if_pos hb, if_pos hc1]
  · have hb : ((matchedBranches env useRegex regexes
        (GetTopLevelBranchNames t)).isEmpty && useRegex) = false := by
      cases hA : (matchedBranches env useRegex regexes
          (GetTopLevelBranchNames t)).isEmpty with
      | false => rw [Bool.false_and]
      | true =>
        cases hu : useRegex with
        | false => rw [Bool.and_false]
        | true => exact absurd ⟨List.isEmpty_iff.mp hA, hu⟩ hc1
    rw [if_neg (by rw [hb]; exact Bool.false_ne_true), if_neg hc1]

/-- C8 counterexample: every provided selector matches a branch of the tree
(the literal selector `x`, given twice, matches branch `x`), yet
`GetMatchingBranchNames` fails: `usedRegexes` is a set of distinct strings,
so a duplicated selector can never account for both occurrences and the
`usedRegexes.size() != regexes.size()` check throws.  So the function does
not fail *exactly* when some selector matches nothing. -/
theorem C8_counterexample :
    (∀ regex ∈ ["x", "x"], ∃ bName ∈ GetTopLevelBranchNames (.node 0 ["x", "y"] []),
        matchBranch envA false bName regex = true) ∧
    GetMatchingBranchNames envA "f.root" "t" ["x", "x"] false =
      .error .selectorsUnused := by
  constructor
  · decide
  · rfl

/-- C8 amended: given an openable file and present tree,
`GetMatchingBranchNames` fails exactly when (in regex mode) no branch
matched any selector, or when the number of *distinct* selectors that fired
as the first match of some branch differs from the number of provided
selectors (counted with multiplicity).  In particular a selector whose every
match is already claimed by an earlier selector — e.g. a duplicate — causes
failure even though it matches; otherwise the matching branch names are
returned. -/
theorem C8_column_resolution (env : Env) (fileName treeName : String)
    (regexes : List String) (useRegex : Bool) (t : TTree)
    (hz : env.isZombie fileName = false)
    (ht : env.getTree fileName treeName = some t) :
    GetMatchingBranchNames env fileName treeName regexes useRegex =
      if matchedBranches env useRegex regexes (GetTopLevelBranchNames t) = [] ∧
          useRegex = true
      then .error .regexNoMatch
      else if (firstMatchSet env useRegex regexes (GetTopLevelBranchNames t)).card ≠
          regexes.length
      then .error .selectorsUnused
      else .ok (matchedBranches env useRegex regexes (GetTopLevelBranchNames t)) :=
  getMatching_characterization env fileName treeName regexes useRegex t hz ht

theorem C8_witness :
    (envA.isZombie "f.root" = false ∧
     envA.getTree "f.root" "t" = some (.node 0 ["x", "y"] [])) ∧
    GetMatchingBranchNames envA "f.root" "t" ["z"] true =
      (if matchedBranches envA true ["z"]
            (GetTopLevelBranchNames (.node 0 ["x", "y"] [])) = [] ∧ true = true
       then .error .regexNoMatch
       else if (firstMatchSet envA true ["z"]
            (GetTopLevelBranchNames (.node 0 ["x", "y"] []))).card ≠ ["z"].length
       then .error .selectorsUnused
       else .ok (matchedBranches envA true ["z"]
            (GetTopLevelBranchNames (.node 0 ["x", "y"] [])))) :=
  ⟨⟨rfl, rfl⟩,
    C8_column_resolution envA "f.root" "t" ["z"] true (.node 0 ["x", "y"] []) rfl rfl⟩

/-- C10: whenever `GetMatchingBranchNames` succeeds, the returned branch
names are the tree's enumerated branch names filtered by the selectors —
i.e. they appear in the tree's own enumeration order, not in selector
order — and contain no duplicates, even when several (or duplicate)
selectors match the same branch. -/
theorem C10_match_order (env : Env) (fileName treeName : String)
    (regexes : List String) (useRegex : Bool) (t : TTree) (r : List String)
    (hz : env.isZombie fileName = false)
    (ht : env.getTree fileName treeName = some t)
    (hok : GetMatchingBranchNames env fileName treeName regexes useRegex = .ok r) :
    r = matchedBranches env useRegex regexes (GetTopLevelBranchNames t) ∧
    r.Sublist (GetTopLevelBranchNames t) ∧ r.Nodup := by
  rw [getMatching_characterization env fileName treeName regexes useRegex t hz ht] at hok
  by_cases h1 : matchedBranches env useRegex regexes (GetTopLevelBranchNames t) = [] ∧
      useRegex = true
  · rw [if_pos h1] at hok
    exact absurd hok (by simp)
  · rw [if_neg h1] at hok
    by_cases h2 : (firstMatchSet env useRegex regexes (GetTopLevelBranchNames t)).card ≠
        regexes.length
    · rw [if_pos h2] at hok
      exact absurd hok (by simp)
    · rw [if_neg h2] at hok
      have hr : r = matchedBranches env useRegex regexes (GetTopLevelBranchNames t) := by
        injection hok with h
        exact h.symm
      subst hr
      have hsub : (matchedBranches env useRegex regexes
          (GetTopLevelBranchNames t)).Sublist (GetTopLevelBranchNames t) := by
        unfold matchedBranches
        exact List.filter_sublist _
      exact ⟨rfl, hsub, (getTopLevelBranchNames_nodup t).sublist hsub⟩

theorem C10_witness :
    (envA.isZombie "f.root" = false ∧
     envA.getTree "f.root" "t" = some (.node 0 ["x", "y"] []) ∧
     GetMatchingBranchNames envA "f.root" "t" ["y", "x"] false = .ok ["x", "y"]) ∧
    ["x", "y"] = matchedBranches envA false ["y", "x"]
      (GetTopLevelBranchNames (.node 0 ["x", "y"] [])) ∧
    List.Sublist ["x", "y"] (GetTopLevelBranchNames (.node 0 ["x", "y"] [])) ∧
    List.Nodup ["x", "y"] :=
  ⟨⟨rfl, rfl, rfl⟩,
    C10_match_order envA "f.root" "t" ["y", "x"] false (.node 0 ["x", "y"] [])
      ["x", "y"] rfl rfl rfl⟩

theorem readTree_sentinel_ok (env : Env) (treeName fileName : String)
    (branchNames : List String) (t : TTree) (fEnd : Int)
    (hz : env.isZombie fileName = false)
    (ht : env.getTree fileName treeName = some t) :
    ReadTree env treeName fileName branchNames ⟨-1, fEnd⟩ =
      .ok (readLoop env treeName fileName branchNames
        ⟨0, env.nEntries fileName treeName⟩) := by
  rw [ReadTree, hz, ht]
  simp

/-- C9: when `ReadTree` is called with the sentinel start `fStart == -1`
(the C++ default `{-1, -1}`), the range is replaced by the full
`[0, GetEntries())` and the range-exceeds-entry-count error branch is
unreachable on that call, whatever `fEnd` accompanies the sentinel: the
call returns the bytes of exactly the entries `[0, recordCount)`. -/
theorem C9_readTree_sentinel (env : Env) (treeName fileName : String)
    (branchNames : List String) (t : TTree) (fEnd : Int)
    (hz : env.isZombie fileName = false)
    (ht : env.getTree fileName treeName = some t) :
    ReadTree env treeName fileName branchNames ⟨-1, fEnd⟩ =
      .ok (readLoop env treeName fileName branchNames
        ⟨0, env.nEntries fileName treeName⟩) :=
  readTree_sentinel_ok env treeName fileName branchNames t fEnd hz ht

theorem C9_witness :
    (envA.isZombie "f.root" = false ∧
     envA.getTree "f.root" "t" = some (.node 0 ["x", "y"] [])) ∧
    ReadTree envA "t" "f.root" ["x"] ⟨-1, 99⟩ =
      .ok (readLoop envA "t" "f.root" ["x"] ⟨0, envA.nEntries "f.root" "t"⟩) :=
  ⟨⟨rfl, rfl⟩,
    C9_readTree_sentinel envA "t" "f.root" ["x"] (.node 0 ["x", "y"] []) 99 rfl rfl⟩

theorem add64_mod_mod (a b : Nat) : add64 (a % U64) (b % U64) = (a + b) % U64 := by
  unfold add64
  rw [Nat.mod_add_mod, Nat.add_mod_mod]

theorem foldl_add64 : ∀ (l : List Nat) (a : Nat),
    l.foldl add64 (a % U64) = (a + l.sum) % U64 := by
  intro l
  induction l with
  | nil => intro a; simp
  | cons x xs ih =>
    intro a
    rw [List.foldl_cons]
    have hstep : add64 (a % U64) x = (a + x) % U64 := by
      unfold add64
      rw [Nat.mod_add_mod]
    rw [hstep, ih (a + x), List.sum_cons]
    rw [Nat.add_assoc]

theorem foldl_add64_zero (l : List Nat) : l.foldl add64 0 = l.sum % U64 := by
  have h := foldl_add64 l 0
  rw [Nat.zero_mod, Nat.zero_add] at h
  exact h

theorem sum_map_mod (l : List Nat) : (l.map (· % U64)).sum % U64 = l.sum % U64 := by
  induction l with
  | nil => rfl
  | cons x xs ih =>
    rw [List.map_cons, List.sum_cons, List.sum_cons, Nat.add_mod,
      Nat.mod_mod_of_dvd _ dvd_rfl, ih, ← Nat.add_mod]

theorem loopBytes_eq (f : Int → String → Nat) (entries : List Int)
    (bns : List String) :
    loopBytes f entries bns =
      (entries.map (fun e => (bns.map (f e)).sum)).sum % U64 := by
  unfold loopBytes
  suffices h : ∀ (es : List Int) (a : Nat),
      es.foldl (fun acc e => bns.foldl (fun a2 b => add64 a2 (f e b)) acc) (a % U64) =
        (a + (es.map (fun e => (bns.map (f e)).sum)).sum) % U64 by
    have h0 := h entries 0
    rw [Nat.zero_mod, Nat.zero_add] at h0
    exact h0
  intro es
  induction es with
  | nil => intro a; simp
  | cons e rest ih =>
    intro a
    rw [List.foldl_cons]
    have hin : bns.foldl (fun a2 b => add64 a2 (f e b)) (a % U64) =
        (a + (bns.map (f e)).sum) % U64 := by
      rw [← List.foldl_map (f e) add64, foldl_add64]
    rw [hin, ih (a + (bns.map (f e)).sum), List.map_cons, List.sum_cons, Nat.add_assoc]

theorem readLoop_eq (env : Env) (treeName fileName : String) (bns : List String)
    (r : EntryRange) :
    readLoop env treeName fileName bns r =
      ⟨fileEntrySumU env fileName treeName bns r % U64,
       fileEntrySumC env fileName treeName bns r % U64⟩ := by
  unfold readLoop fileEntrySumU fileEntrySumC
  rw [loopBytes_eq, loopBytes_eq]

theorem except_bind_ok {α β : Type} (x : Except Err α) (f : α → Except Err β)
    (b : β) (h : (x >>= f) = .ok b) : ∃ a, x = .ok a ∧ f a = .ok b := by
  match x with
  | .error e => exact absurd h (by simp [Bind.bind, Except.bind])
  | .ok a => exact ⟨a, rfl, h⟩

theorem mapM_except_map {α β : Type} (f : α → Except Err β) (g : α → β) :
    ∀ L : List α, (∀ a ∈ L, f a = .ok (g a)) → L.mapM f = .ok (L.map g) := by
  intro L
  induction L with
  | nil => exact fun _ => rfl
  | cons a as ih =>
    intro h
    rw [List.mapM_cons, h a (List.mem_cons_self a as),
      ih (fun x hx => h x (List.mem_cons_of_mem _ hx))]
    rfl

theorem getMatching_ok_implies {env : Env} {f tn : String} {rs : List String}
    {u : Bool} {bns : List String}
    (h : GetMatchingBranchNames env f tn rs u = .ok bns) :
    env.isZombie f = false ∧ ∃ t, env.getTree f tn = some t := by
  rw [GetMatchingBranchNames] at h
  cases hz : env.isZombie f with
  | true => rw [hz] at h; exact absurd h (by simp)
  | false =>
    rw [hz] at h
    refine ⟨rfl, ?_⟩
    cases ht : env.getTree f tn with
    | none => rw [ht] at h; exact absurd h (by simp)
    | some t => exact ⟨t, rfl⟩

theorem readTree_explicit (env : Env) (treeName fileName : String)
    (bns : List String) (r : EntryRange) (t : TTree)
    (hz : env.isZombie fileName = false)
    (ht : env.getTree fileName treeName = some t)
    (h0 : 0 ≤ r.fStart) (hend : r.fEnd ≤ env.nEntries fileName treeName) :
    ReadTree env treeName fileName bns r = .ok (readLoop env treeName fileName bns r) := by
  rw [ReadTree, hz, ht]
  simp only [Bool.false_eq_true, if_false]
  rw [if_neg (show ¬r.fStart = -1 by omega),
    if_neg (show ¬r.fEnd > env.nEntries fileName treeName by omega)]

theorem tIdxAt_zero (d : Data) : tIdxAt d 0 = 0 := by
  unfold tIdxAt
  split <;> rfl

theorem tIdxAt_treeName (d : Data) (j : Nat) :
    d.fTreeNames.getD (tIdxAt d j) "" = treeNameOf d j := by
  unfold tIdxAt treeNameOf
  split <;> rfl

theorem tIdxAt_step (d : Data) (j : Nat) :
    (if d.fTreeNames.length > 1 then tIdxAt d j + 1 else tIdxAt d j) = tIdxAt d (j + 1) := by
  unfold tIdxAt
  split <;> rfl

theorem drop_cons_getD (d : Data) (j : Nat) (hj : j < d.fFileNames.length) :
    d.fFileNames.drop j = d.fFileNames.getD j "" :: d.fFileNames.drop (j + 1) := by
  rw [List.drop_eq_getElem_cons hj, List.getD_eq_getElem _ _ hj]

theorem evalSTLoop_eq (env : Env) (d : Data) (bns : Nat → List String)
    (hm : ∀ i, i < d.fFileNames.length →
      GetMatchingBranchNames env (d.fFileNames.getD i "") (treeNameOf d i)
        d.fBranchNames d.fUseRegex = .ok (bns i)) :
    ∀ (k j : Nat), j + k = d.fFileNames.length → ∀ A C : Nat,
      evalSTLoop env d (d.fFileNames.drop j) (tIdxAt d j) (A % U64) (C % U64) =
        .ok ⟨(A + ((List.range' j k).map (fun i =>
            fileEntrySumU env (d.fFileNames.getD i "") (treeNameOf d i) (bns i)
              ⟨0, env.nEntries (d.fFileNames.getD i "") (treeNameOf d i)⟩)).sum) % U64,
          (C + ((List.range' j k).map (fun i =>
            fileEntrySumC env (d.fFileNames.getD i "") (treeNameOf d i) (bns i)
              ⟨0, env.nEntries (d.fFileNames.getD i "") (treeNameOf d i)⟩)).sum) % U64⟩ := by
  intro k
  induction k with
  | zero =>
    intro j hj A C
    rw [List.drop_eq_nil_of_le (by omega), evalSTLoop]
    simp [List.range']
  | succ k ih =>
    intro j hj A C
    have hjlt : j < d.fFileNames.length := by omega
    rw [drop_cons_getD d j hjlt, evalSTLoop, tIdxAt_treeName, hm j hjlt]
    obtain ⟨hz, t, ht⟩ := getMatching_ok_implies (hm j hjlt)
    rw [show ((Except.ok (bns j) : Except Err (List String)) >>= fun branchNames =>
        ReadTree env (treeNameOf d j) (d.fFileNames.getD j "") branchNames ⟨-1, -1⟩ >>=
          fun byteData => evalSTLoop env d (d.fFileNames.drop (j + 1))
            (if d.fTreeNames.length > 1 then tIdxAt d j + 1 else tIdxAt d j)
            (add64 (A % U64) byteData.fUncompressedBytesRead)
            (add64 (C % U64) byteData.fCompressedBytesRead)) =
      (ReadTree env (treeNameOf d j) (d.fFileNames.getD j "") (bns j) ⟨-1, -1⟩ >>=
          fun byteData => evalSTLoop env d (d.fFileNames.drop (j + 1))
            (if d.fTreeNames.length > 1 then tIdxAt d j + 1 else tIdxAt d j)
            (add64 (A % U64) byteData.fUncompressedBytesRead)
            (add64 (C % U64) byteData.fCompressedBytesRead)) from rfl]
    rw [readTree_sentinel_ok env _ _ _ t (-1) hz ht, readLoop_eq]
    show evalSTLoop env d (d.fFileNames.drop (j + 1))
        (if d.fTreeNames.length > 1 then tIdxAt d j + 1 else tIdxAt d j)
        (add64 (A % U64) (fileEntrySumU env (d.fFileNames.getD j "") (treeNameOf d j)
          (bns j) ⟨0, env.nEntries (d.fFileNames.getD j "") (treeNameOf d j)⟩ % U64))
        (add64 (C % U64) (fileEntrySumC env (d.fFileNames.getD j "") (treeNameOf d j)
          (bns j) ⟨0, env.nEntries (d.fFileNames.getD j "") (treeNameOf d j)⟩ % U64)) = _
    rw [tIdxAt_step, add64_mod_mod, add64_mod_mod,
      ih (j + 1) (by omega) _ _]
    simp only [List.range'_succ, List.map_cons, List.sum_cons]
    congr 2 <;> rw [Nat.add_assoc]

theorem evalSTLoop_ok_forall (env : Env) (d : Data) :
    ∀ (k j : Nat), j + k = d.fFileNames.length → ∀ (accU accC : Nat) (bd : ByteData),
      evalSTLoop env d (d.fFileNames.drop j) (tIdxAt d j) accU accC = .ok bd →
      ∀ i, j ≤ i → i < d.fFileNames.length →
        ∃ bns, GetMatchingBranchNames env (d.fFileNames.getD i "") (treeNameOf d i)
          d.fBranchNames d.fUseRegex = .ok bns := by
  intro k
  induction k with
  | zero => intro j hj _ _ _ _ i hi1 hi2; omega
  | succ k ih =>
    intro j hj accU accC bd h i hi1 hi2
    have hjlt : j < d.fFileNames.length := by omega
    rw [drop_cons_getD d j hjlt, evalSTLoop, tIdxAt_treeName] at h
    obtain ⟨bnsj, hbnsj, h2⟩ := except_bind_ok _ _ _ h
    obtain ⟨bdj, hbdj, h3⟩ := except_bind_ok _ _ _ h2
    rcases eq_or_lt_of_le hi1 with rfl | hgt
    · exact ⟨bnsj, hbnsj⟩
    · rw [tIdxAt_step] at h3
      exact ih (j + 1) (by omega) _ _ bd h3 i (by omega) hi2

theorem evalST_eq (env : Env) (d : Data) (bns : Nat → List String)
    (hm : ∀ i, i < d.fFileNames.length →
      GetMatchingBranchNames env (d.fFileNames.getD i "") (treeNameOf d i)
        d.fBranchNames d.fUseRegex = .ok (bns i)) :
    EvalThroughputST env d =
      .ok ⟨((List.range d.fFileNames.length).map (fun i =>
          fileEntrySumU env (d.fFileNames.getD i "") (treeNameOf d i) (bns i)
            ⟨0, env.nEntries (d.fFileNames.getD i "") (treeNameOf d i)⟩)).sum % U64,
        ((List.range d.fFileNames.length).map (fun i =>
          fileEntrySumC env (d.fFileNames.getD i "") (treeNameOf d i) (bns i)
            ⟨0, env.nEntries (d.fFileNames.getD i "") (treeNameOf d i)⟩)).sum % U64⟩ := by
  have h := evalSTLoop_eq env d bns hm d.fFileNames.length 0 (by omega) 0 0
  rw [List.drop_zero, tIdxAt_zero, Nat.zero_mod] at h
  rw [EvalThroughputST, h, List.range_eq_range']
  simp

theorem covers_headD (l : List EntryRange) (d : EntryRange) (hpos : PosRanges l)
    (hne : l ≠ []) : covers l (l.headD d).fStart := by
  match l, hne with
  | a :: t, _ =>
    exact ⟨a, List.mem_cons_self _ _, le_refl _, hpos a (List.mem_cons_self _ _)⟩

theorem endpoints_of_covers_iff (l1 l2 : List EntryRange) (d : EntryRange)
    (h1 : PosRanges l1) (hc1 : Contiguous l1) (h2 : PosRanges l2) (hc2 : Contiguous l2)
    (hiff : ∀ k, covers l1 k ↔ covers l2 k) (hne : l2 ≠ []) :
    l1 ≠ [] ∧ (l1.headD d).fStart = (l2.headD d).fStart ∧
      (l1.getLastD d).fEnd = (l2.getLastD d).fEnd := by
  have hcov2 := covers_headD l2 d h2 hne
  have hcov1 := (hiff _).mpr hcov2
  have hne1 : l1 ≠ [] := by
    intro h0
    rw [h0] at hcov1
    obtain ⟨rg, hrg, _⟩ := hcov1
    exact List.not_mem_nil rg hrg
  have hi1 := covers_iff_interval d l1 h1 hc1 hne1
  have hi2 := covers_iff_interval d l2 h2 hc2 hne
  have hA := (hi1 _).mp hcov1
  have hB := (hi2 _).mp ((hiff _).mp (covers_headD l1 d h1 hne1))
  have hI2 := (hi2 _).mp hcov2
  have hI1 := (hi1 _).mp (covers_headD l1 d h1 hne1)
  have hEndB : covers l1 ((l2.getLastD d).fEnd - 1) :=
    (hiff _).mpr ((hi2 _).mpr ⟨by omega, by omega⟩)
  have hEndB' := (hi1 _).mp hEndB
  have hEndA : covers l2 ((l1.getLastD d).fEnd - 1) :=
    (hiff _).mp ((hi1 _).mpr ⟨by omega, by omega⟩)
  have hEndA' := (hi2 _).mp hEndA
  exact ⟨hne1, by omega, by omega⟩

theorem mergeFile_preserves_cover (cap : Nat) (hcap : 1 ≤ cap)
    (cl : List EntryRange) (n : Int) (hcover : ClustersCover cl n)
    (out : List EntryRange) (hout : mergeFileClusters cap cl = some out) :
    ClustersCover out n := by
  have hcap0 : cap ≠ 0 := by omega
  by_cases h : cl.length / cap = 0
  · rw [mergeFileClusters, if_neg hcap0, if_pos h] at hout
    injection hout with hout
    rw [← hout]
    exact hcover
  · obtain ⟨out', groups, hsome, hflat, hmap, hsizes, hposo, hcho, hpw, hcov⟩ :=
      mergeFileClusters_partition cl cap hcap (Nat.pos_of_ne_zero h) hcover.1 hcover.2.1
    rw [hsome] at hout
    injection hout with hout
    rw [← hout]
    have hclne : cl ≠ [] := by
      intro h0
      rw [h0] at h
      simp at h
    obtain ⟨hone, hstart, hend⟩ := endpoints_of_covers_iff out' cl ⟨0, 0⟩
      hposo hcho hcover.1 hcover.2.1 hcov hclne
    obtain ⟨he1, he2⟩ := hcover.2.2.2 hclne
    exact ⟨hposo, hcho, fun h0 => absurd h0 hone,
      fun _ => ⟨by rw [hstart, he1], by rw [hend, he2]⟩⟩

theorem range_bounds_of_cover (cl : List EntryRange) (n : Int)
    (h : ClustersCover cl n) : ∀ r ∈ cl, 0 ≤ r.fStart ∧ r.fEnd ≤ n := by
  intro r hr
  have hne : cl ≠ [] := by
    intro h0
    rw [h0] at hr
    exact List.not_mem_nil r hr
  obtain ⟨hpos, hch, _, hends⟩ := h
  obtain ⟨hstart, hend⟩ := hends hne
  have hi := covers_iff_interval ⟨0, 0⟩ cl hpos hch hne
  have hrp := hpos r hr
  have hc1 : covers cl r.fStart := ⟨r, hr, le_refl r.fStart, hrp⟩
  have hc2 : covers cl (r.fEnd - 1) := ⟨r, hr, by omega, by omega⟩
  have b1 := (hi _).mp hc1
  have b2 := (hi _).mp hc2
  rw [hstart] at b1
  rw [hend] at b2
  omega

theorem rangeEntries_append (a b c : Int) (h1 : a ≤ b) (h2 : b ≤ c) :
    rangeEntries ⟨a, b⟩ ++ rangeEntries ⟨b, c⟩ = rangeEntries ⟨a, c⟩ := by
  unfold rangeEntries
  have hsplit : (c - a).toNat = (b - a).toNat + (c - b).toNat := by omega
  rw [hsplit, List.range_add, List.map_append, List.map_map]
  congr 1
  apply List.map_congr_left
  intro i _
  simp only [Function.comp_apply]
  have hba : ((b - a).toNat : Int) = b - a := Int.toNat_of_nonneg (by omega)
  push_cast
  omega

theorem entries_flatten_chain (d : EntryRange) :
    ∀ cl : List EntryRange, PosRanges cl → Contiguous cl → cl ≠ [] →
      (cl.map rangeEntries).flatten =
        rangeEntries ⟨(cl.headD d).fStart, (cl.getLastD d).fEnd⟩ := by
  intro cl
  induction cl with
  | nil => intro _ _ h; exact absurd rfl h
  | cons x tl ih =>
    intro hpos hch _
    match tl with
    | [] => simp [List.getLastD]
    | y :: tl' =>
      have hxy : x.fEnd = y.fStart := (List.chain'_cons.mp hch).1
      have hpos' : PosRanges (y :: tl') :=
        fun rg h => hpos rg (List.mem_cons_of_mem _ h)
      have hch' := (List.chain'_cons.mp hch).2
      have hih := ih hpos' hch' (List.cons_ne_nil _ _)
      rw [List.map_cons, List.flatten_cons, hih]
      have hx := hpos x (List.mem_cons_self _ _)
      have hyb : y.fStart < (((y :: tl') : List EntryRange).getLastD d).fEnd :=
        ((covers_iff_interval d (y :: tl') hpos' hch' (List.cons_ne_nil _ _)
          y.fStart).mp (covers_headD _ d hpos' (List.cons_ne_nil _ _))).2
      simp only [List.headD_cons, List.getLastD_cons] at hyb ⊢
      have hxeta : rangeEntries x = rangeEntries ⟨x.fStart, x.fEnd⟩ := rfl
      rw [hxeta, hxy]
      exact rangeEntries_append x.fStart y.fStart (tl'.getLastD y).fEnd
        (by omega) (by omega)

theorem entries_flatten_of_cover (cl : List EntryRange) (n : Int)
    (h : ClustersCover cl n) :
    (cl.map rangeEntries).flatten = rangeEntries ⟨0, n⟩ := by
  match cl with
  | [] =>
    have hn := h.2.2.1 rfl
    simp only [List.map_nil, List.flatten_nil, rangeEntries]
    have h0 : (n - 0).toNat = 0 := by omega
    rw [h0]
    rfl
  | c :: t =>
    obtain ⟨he1, he2⟩ := h.2.2.2 (List.cons_ne_nil _ _)
    rw [entries_flatten_chain ⟨0, 0⟩ _ h.1 h.2.1 (List.cons_ne_nil _ _), he1, he2]

theorem sum_over_ranges (g : Int → Nat) (rs : List EntryRange) (n : Int)
    (h : ClustersCover rs n) :
    (rs.map (fun r => ((rangeEntries r).map g).sum)).sum =
      ((rangeEntries ⟨0, n⟩).map g).sum := by
  conv_rhs => rw [← entries_flatten_of_cover rs n h]
  rw [List.map_flatten, List.sum_flatten, List.map_map, List.map_map]
  rfl

theorem ok_bind {α β : Type} (a : α) (f : α → Except Err β) :
    ((Except.ok a : Except Err α) >>= f) = f a := rfl

theorem mapM_option_map {α β : Type} (f : α → Option β) (g : α → β) :
    ∀ L : List α, (∀ a ∈ L, f a = some (g a)) → L.mapM f = some (L.map g) := by
  intro L
  induction L with
  | nil => exact fun _ => rfl
  | cons a as ih =>
    intro h
    rw [List.mapM_cons, h a (List.mem_cons_self a as),
      ih (fun x hx => h x (List.mem_cons_of_mem _ hx))]
    rfl

theorem getD_map_range {α : Type} (g : Nat → α) (n i : Nat) (hi : i < n) (dflt : α) :
    ((List.range n).map g).getD i dflt = g i := by
  rw [List.getD_eq_getElem _ _ (by simpa using hi)]
  simp

theorem ceilDivNat_pos (a b : Nat) (ha : 1 ≤ a) (hb : 1 ≤ b) : 1 ≤ ceilDivNat a b := by
  unfold ceilDivNat
  rw [Nat.le_div_iff_mul_le (by omega)]
  omega

theorem getClusters_eq (env : Env) (d : Data)
    (hok : ∀ i, i < d.fFileNames.length →
      env.isZombie (d.fFileNames.getD i "") = false ∧
      ∃ t, env.getTree (d.fFileNames.getD i "") (treeNameOf d i) = some t) :
    GetClusters env d = .ok ((List.range d.fFileNames.length).map
      (fun i => env.clusters (d.fFileNames.getD i "") (treeNameOf d i))) := by
  unfold GetClusters
  apply mapM_except_map
  intro i hi
  obtain ⟨hz, t, ht⟩ := hok i (List.mem_range.mp hi)
  simp only [hz, Bool.false_eq_true, if_false, ht]

theorem sumBytes_map_proj (l : List ByteData) :
    sumBytes l = ⟨(l.map ByteData.fUncompressedBytesRead).sum % U64,
                  (l.map ByteData.fCompressedBytesRead).sum % U64⟩ := by
  unfold sumBytes
  rw [← List.foldl_map ByteData.fUncompressedBytesRead add64 l 0, foldl_add64_zero,
    ← List.foldl_map ByteData.fCompressedBytesRead add64 l 0, foldl_add64_zero]

theorem sumBytes_readLoop (env : Env) (treeName fileName : String) (bns : List String)
    (rs : List EntryRange) (n : Int) (h : ClustersCover rs n) :
    sumBytes (rs.map (fun r => readLoop env treeName fileName bns r)) =
      ⟨fileEntrySumU env fileName treeName bns ⟨0, n⟩ % U64,
       fileEntrySumC env fileName treeName bns ⟨0, n⟩ % U64⟩ := by
  rw [sumBytes_map_proj]
  congr 1
  · rw [List.map_map]
    have hcomp : (ByteData.fUncompressedBytesRead ∘ fun r => readLoop env treeName fileName bns r) =
        fun r => fileEntrySumU env fileName treeName bns r % U64 := by
      funext r
      rw [Function.comp_apply, readLoop_eq]
    rw [hcomp]
    have hmm : rs.map (fun r => fileEntrySumU env fileName treeName bns r % U64) =
        (rs.map (fun r => fileEntrySumU env fileName treeName bns r)).map (· % U64) := by
      rw [List.map_map]
      rfl
    rw [hmm, sum_map_mod]
    unfold fileEntrySumU
    rw [sum_over_ranges (fun e => (bns.map (fun b => env.uncompBytes fileName treeName b e)).sum)
      rs n h]
  · rw [List.map_map]
    have hcomp : (ByteData.fCompressedBytesRead ∘ fun r => readLoop env treeName fileName bns r) =
        fun r => fileEntrySumC env fileName treeName bns r % U64 := by
      funext r
      rw [Function.comp_apply, readLoop_eq]
    rw [hcomp]
    have hmm : rs.map (fun r => fileEntrySumC env fileName treeName bns r % U64) =
        (rs.map (fun r => fileEntrySumC env fileName treeName bns r)).map (· % U64) := by
      rw [List.map_map]
      rfl
    rw [hmm, sum_map_mod]
    unfold fileEntrySumC
    rw [sum_over_ranges (fun e => (bns.map (fun b => env.compBytes fileName treeName b e)).sum)
      rs n h]

theorem sumBytes_outer (S C : Nat → Nat) (n : Nat) :
    sumBytes ((List.range n).map (fun i => (⟨S i % U64, C i % U64⟩ : ByteData))) =
      ⟨((List.range n).map S).sum % U64, ((List.range n).map C).sum % U64⟩ := by
  rw [sumBytes_map_proj]
  congr 1
  · rw [List.map_map]
    have h1 : (ByteData.fUncompressedBytesRead ∘
        fun i => (⟨S i % U64, C i % U64⟩ : ByteData)) = fun i => S i % U64 := rfl
    have h2 : ((List.range n).map fun i => S i % U64) =
        ((List.range n).map S).map (· % U64) := by
      rw [List.map_map]
      rfl
    rw [h1, h2, sum_map_mod]
  · rw [List.map_map]
    have h1 : (ByteData.fCompressedBytesRead ∘
        fun i => (⟨S i % U64, C i % U64⟩ : ByteData)) = fun i => C i % U64 := rfl
    have h2 : ((List.range n).map fun i => C i % U64) =
        ((List.range n).map C).map (· % U64) := by
      rw [List.map_map]
      rfl
    rw [h1, h2, sum_map_mod]

theorem pure_bind_except {α β : Type} (a : α) (f : α → Except Err β) :
    ((pure a : Except Err α) >>= f) = f a := rfl

theorem mergedOrFault_some (r : List (List EntryRange)) :
    mergedOrFault (some r) = pure r := rfl

theorem evalMT_eq (env : Env) (d : Data) (nThreads hint : Nat)
    (hn : 1 ≤ nThreads) (hh : 1 ≤ hint) (hF : d.fFileNames ≠ [])
    (bns : Nat → List String)
    (hm : ∀ i, i < d.fFileNames.length →
      GetMatchingBranchNames env (d.fFileNames.getD i "") (treeNameOf d i)
        d.fBranchNames d.fUseRegex = .ok (bns i))
    (hcover : ∀ i, i < d.fFileNames.length →
      ClustersCover (env.clusters (d.fFileNames.getD i "") (treeNameOf d i))
        (env.nEntries (d.fFileNames.getD i "") (treeNameOf d i))) :
    EvalThroughputMT env d nThreads hint =
      .ok ⟨((List.range d.fFileNames.length).map (fun i =>
          fileEntrySumU env (d.fFileNames.getD i "") (treeNameOf d i) (bns i)
            ⟨0, env.nEntries (d.fFileNames.getD i "") (treeNameOf d i)⟩)).sum % U64,
        ((List.range d.fFileNames.length).map (fun i =>
          fileEntrySumC env (d.fFileNames.getD i "") (treeNameOf d i) (bns i)
            ⟨0, env.nEntries (d.fFileNames.getD i "") (treeNameOf d i)⟩)).sum % U64⟩ := by
  have hnpos : 0 < d.fFileNames.length := List.length_pos.mpr hF
  have hone : 1 ≤ hint * nThreads := by
    have := Nat.mul_le_mul hh hn
    simpa using this
  have hcap : 1 ≤ ceilDivNat (hint * nThreads) d.fFileNames.length :=
    ceilDivNat_pos _ _ hone hnpos
  have hio : ∀ i, i < d.fFileNames.length →
      env.isZombie (d.fFileNames.getD i "") = false ∧
      ∃ t, env.getTree (d.fFileNames.getD i "") (treeNameOf d i) = some t :=
    fun i hi => getMatching_ok_implies (hm i hi)
  have hGC := getClusters_eq env d hio
  have hmspec : ∀ cl : List EntryRange,
      mergeFileClusters (ceilDivNat (hint * nThreads) d.fFileNames.length) cl =
        some ((mergeFileClusters (ceilDivNat (hint * nThreads) d.fFileNames.length)
          cl).getD []) := by
    intro cl
    obtain ⟨o, ho, _⟩ := mergeFileClusters_spec _ hcap cl
    rw [ho]
    rfl
  have hMC : MergeClusters ((List.range d.fFileNames.length).map
      (fun i => env.clusters (d.fFileNames.getD i "") (treeNameOf d i)))
      (ceilDivNat (hint * nThreads) d.fFileNames.length) =
      some ((List.range d.fFileNames.length).map (fun i =>
        (mergeFileClusters (ceilDivNat (hint * nThreads) d.fFileNames.length)
          (env.clusters (d.fFileNames.getD i "") (treeNameOf d i))).getD [])) := by
    unfold MergeClusters
    rw [mapM_option_map _
      (fun cl => (mergeFileClusters (ceilDivNat (hint * nThreads)
        d.fFileNames.length) cl).getD []) _ (fun cl _ => hmspec cl), List.map_map]
    rfl
  have hFB : (List.range d.fFileNames.length).mapM (fun fileIdx =>
      GetMatchingBranchNames env (d.fFileNames.getD fileIdx "") (treeNameOf d fileIdx)
        d.fBranchNames d.fUseRegex) = .ok ((List.range d.fFileNames.length).map bns) :=
    mapM_except_map _ bns _ (fun i hi => hm i (List.mem_range.mp hi))
  have hinner : ∀ i ∈ List.range d.fFileNames.length,
      (do
        let bds ← (((List.range d.fFileNames.length).map (fun j =>
            (mergeFileClusters (ceilDivNat (hint * nThreads) d.fFileNames.length)
              (env.clusters (d.fFileNames.getD j "") (treeNameOf d j))).getD [])).getD i []).mapM
          (fun range => ReadTree env (treeNameOf d i) (d.fFileNames.getD i "")
            (((List.range d.fFileNames.length).map bns).getD i []) range)
        pure (sumBytes bds) : Except Err ByteData) =
      .ok ⟨fileEntrySumU env (d.fFileNames.getD i "") (treeNameOf d i) (bns i)
            ⟨0, env.nEntries (d.fFileNames.getD i "") (treeNameOf d i)⟩ % U64,
          fileEntrySumC env (d.fFileNames.getD i "") (treeNameOf d i) (bns i)
            ⟨0, env.nEntries (d.fFileNames.getD i "") (treeNameOf d i)⟩ % U64⟩ := by
    intro i hi
    have hi' := List.mem_range.mp hi
    rw [getD_map_range _ _ _ hi', getD_map_range _ _ _ hi']
    obtain ⟨merged, hmerged, _⟩ := mergeFileClusters_spec
      (ceilDivNat (hint * nThreads) d.fFileNames.length) hcap
      (env.clusters (d.fFileNames.getD i "") (treeNameOf d i))
    rw [hmerged, Option.getD_some]
    have hcovi := mergeFile_preserves_cover _ hcap _ _ (hcover i hi') merged hmerged
    obtain ⟨hz, t, ht⟩ := hio i hi'
    rw [mapM_except_map _
      (fun r => readLoop env (treeNameOf d i) (d.fFileNames.getD i "") (bns i) r) _
      (fun r hr => readTree_explicit env (treeNameOf d i) (d.fFileNames.getD i "")
        (bns i) r t hz ht (range_bounds_of_cover _ _ hcovi r hr).1
        (range_bounds_of_cover _ _ hcovi r hr).2)]
    rw [ok_bind, sumBytes_readLoop env (treeNameOf d i) (d.fFileNames.getD i "")
      (bns i) merged _ hcovi]
    rfl
  simp only [EvalThroughputMT]
  rw [hGC, ok_bind, hMC, mergedOrFault_some, pure_bind_except, hFB, ok_bind]
  rw [mapM_except_map _ (fun i =>
    (⟨fileEntrySumU env (d.fFileNames.getD i "") (treeNameOf d i) (bns i)
        ⟨0, env.nEntries (d.fFileNames.getD i "") (treeNameOf d i)⟩ % U64,
      fileEntrySumC env (d.fFileNames.getD i "") (treeNameOf d i) (bns i)
        ⟨0, env.nEntries (d.fFileNames.getD i "") (treeNameOf d i)⟩ % U64⟩ : ByteData))
    _ hinner, ok_bind]
  rw [sumBytes_outer]
  rfl

/-- C1: for every valid dataset configuration (non-empty tree/file/branch
lists, tree-name count 1 or equal to the file count) whose per-file native
cluster lists partition `[0, recordCount)` (the cluster-iterator contract),
and with the external reader modelled as a pure per-entry byte source, the
single-threaded run and the multi-threaded run return identical totals —
the same `fUncompressedBytesRead` and `fCompressedBytesRead` — for every
worker count `nThreads ≥ 1` and every tasks-per-worker hint `≥ 1`. -/
theorem C1_ST_MT_totals (env : Env) (d : Data)
    (hT : d.fTreeNames ≠ []) (hF : d.fFileNames ≠ []) (hB : d.fBranchNames ≠ [])
    (hTF : d.fTreeNames.length = 1 ∨ d.fTreeNames.length = d.fFileNames.length)
    (hcover : ∀ i, i < d.fFileNames.length →
      ClustersCover (env.clusters (d.fFileNames.getD i "") (treeNameOf d i))
        (env.nEntries (d.fFileNames.getD i "") (treeNameOf d i)))
    (nThreads hint : Nat) (hn : 1 ≤ nThreads) (hh : 1 ≤ hint)
    (bd : ByteData) (hST : EvalThroughputST env d = .ok bd) :
    EvalThroughputMT env d nThreads hint = .ok bd := by
  have hST' : evalSTLoop env d (d.fFileNames.drop 0) (tIdxAt d 0) 0 0 = .ok bd := by
    rw [List.drop_zero, tIdxAt_zero]
    exact hST
  have hex : ∀ i, ∃ bns, i < d.fFileNames.length →
      GetMatchingBranchNames env (d.fFileNames.getD i "") (treeNameOf d i)
        d.fBranchNames d.fUseRegex = .ok bns := by
    intro i
    by_cases hi : i < d.fFileNames.length
    · obtain ⟨bns, hbns⟩ := evalSTLoop_ok_forall env d d.fFileNames.length 0
        (by omega) 0 0 bd hST' i (by omega) hi
      exact ⟨bns, fun _ => hbns⟩
    · exact ⟨[], fun h => absurd h hi⟩
  choose bns hbns using hex
  have hSTc := evalST_eq env d bns hbns
  rw [hST] at hSTc
  injection hSTc with hbd
  rw [evalMT_eq env d nThreads hint hn hh hF bns hbns hcover, hbd]

theorem C1_witness :
    ((Data.fTreeNames ⟨["t"], ["f.root"], ["x"], false⟩ ≠ [] ∧
      Data.fFileNames ⟨["t"], ["f.root"], ["x"], false⟩ ≠ [] ∧
      Data.fBranchNames ⟨["t"], ["f.root"], ["x"], false⟩ ≠ [] ∧
      ((Data.fTreeNames ⟨["t"], ["f.root"], ["x"], false⟩).length = 1 ∨
       (Data.fTreeNames ⟨["t"], ["f.root"], ["x"], false⟩).length =
         (Data.fFileNames ⟨["t"], ["f.root"], ["x"], false⟩).length) ∧
      (∀ i, i < (Data.fFileNames ⟨["t"], ["f.root"], ["x"], false⟩).length →
        ClustersCover
          (envA.clusters ((Data.fFileNames ⟨["t"], ["f.root"], ["x"], false⟩).getD i "")
            (treeNameOf ⟨["t"], ["f.root"], ["x"], false⟩ i))
          (envA.nEntries ((Data.fFileNames ⟨["t"], ["f.root"], ["x"], false⟩).getD i "")
            (treeNameOf ⟨["t"], ["f.root"], ["x"], false⟩ i))) ∧
      1 ≤ 2 ∧ 1 ≤ 10 ∧
      EvalThroughputST envA ⟨["t"], ["f.root"], ["x"], false⟩ = .ok ⟨10, 4⟩) ∧
     EvalThroughputMT envA ⟨["t"], ["f.root"], ["x"], false⟩ 2 10 = .ok ⟨10, 4⟩) :=
  ⟨⟨by decide, by decide, by decide, by decide, by decide, by decide, by decide, rfl⟩,
    C1_ST_MT_totals envA ⟨["t"], ["f.root"], ["x"], false⟩
      (by decide) (by decide) (by decide) (by decide) (by decide)
      2 10 (by decide) (by decide) ⟨10, 4⟩ rfl⟩

end ReadSpeed
